import Mathlib

set_option maxHeartbeats 1000000

/-!
Shallow embedding of the `redactpii-node` repository (files `src/Redactor.ts`,
`src/types.ts`).  Pure functions of the source become Lean functions; the
instance-level mutable anonymization state (`anonymizationMap`,
`anonymizationCounters`) becomes an explicit `AnonState` value threaded through
the operations; JavaScript `RegExp` values become a small regex AST with a
backtracking matcher that follows ECMAScript matching order (leftmost start
position, greedy quantifiers, left-biased alternation, one-character advance on
empty matches).  JavaScript `Map`s become insertion-ordered association lists.
-/

/-! ## Decimal rendering of counters (JS `${counter}` interpolation) -/

/-- Decimal digit character (`0`–`9`). -/
def digitChar (n : Nat) : Char := Char.ofNat (48 + n)

/-- Decimal digits of `n`, most significant first; `fuel ≥ n` suffices (each
step divides by ten). -/
def natDigitsAux : Nat → Nat → List Char
  | 0, n => [digitChar n]
  | fuel + 1, n =>
    if n < 10 then [digitChar n]
    else natDigitsAux fuel (n / 10) ++ [digitChar (n % 10)]

/-- Decimal digit list of a natural number, most significant first.  Models the
JavaScript number-to-string conversion used in `` `${tokenPrefix}_${counter}` ``
for the (always natural) counter values. -/
def natDigits (n : Nat) : List Char := natDigitsAux n n

/-- Decimal string of a natural number. -/
def natToString (n : Nat) : String := String.mk (natDigits n)

/-! ## Insertion-ordered association maps (JS `Map`) -/

/-- `Map.get`: value of the first (and in a JS `Map`, only) entry with key `k`. -/
def mapGet {α : Type} (m : List (String × α)) (k : String) : Option α :=
  match m with
  | [] => none
  | p :: rest => if p.1 = k then some p.2 else mapGet rest k

/-- `Map.set`: update the existing entry in place (JS `Map.set` keeps the
original insertion position) or append a new entry at the end. -/
def mapSet {α : Type} (m : List (String × α)) (k : String) (v : α) :
    List (String × α) :=
  match m with
  | [] => [(k, v)]
  | p :: rest => if p.1 = k then (k, v) :: rest else p :: mapSet rest k v

/-! ## Regex AST and matcher -/

/-- Abstract syntax of the regular-expression fragment used by the source's
pattern library: character classes, concatenation, alternation, greedy
Kleene star, the word-boundary assertion `\b` and the start anchor `^`
(patterns have no `m` flag, so `^` only matches at the start of the input). -/
inductive Regex where
  | eps : Regex
  | cls : (Char → Bool) → Regex
  | seq : Regex → Regex → Regex
  | alt : Regex → Regex → Regex
  | star : Regex → Regex
  | wordB : Regex
  | bos : Regex

/-- Structural size of a regex, used to compute an adequate fuel bound for the
backtracking matcher. -/
def Regex.size : Regex → Nat
  | .eps => 1
  | .cls _ => 1
  | .wordB => 1
  | .bos => 1
  | .seq a b => a.size + b.size + 1
  | .alt a b => a.size + b.size + 1
  | .star r => r.size + 1

/-- ASCII letter (the `i` flag makes `[a-z]` match both cases). -/
def isAsciiLetter (c : Char) : Bool :=
  ('a' ≤ c && c ≤ 'z') || ('A' ≤ c && c ≤ 'Z')

/-- ASCII digit, JS `\d`. -/
def isAsciiDigit (c : Char) : Bool := '0' ≤ c && c ≤ '9'

/-- JS `\w`: `[A-Za-z0-9_]`. -/
def isWordChar (c : Char) : Bool :=
  isAsciiLetter c || isAsciiDigit c || c == '_'

/-- JS `\s`: ECMAScript WhiteSpace and LineTerminator code points. -/
def isJsSpace (c : Char) : Bool :=
  c == ' ' || c == '\t' || c == '\n' || c == '\r' || c == '\x0b' ||
  c == '\x0c' || c == '\u00A0' || c == '\u1680' ||
  ('\u2000' ≤ c && c ≤ '\u200A') || c == '\u2028' || c == '\u2029' ||
  c == '\u202F' || c == '\u205F' || c == '\u3000' || c == '\uFEFF'

/-- Word-character test on an optional character (`none` = outside the input,
which counts as a non-word position for `\b`). -/
def optWord : Option Char → Bool
  | none => false
  | some c => isWordChar c

/-- ECMAScript `\b`: holds when exactly one side of the current position is a
word character.  `prev` is the character immediately before the position. -/
def wordBoundaryAt (prev : Option Char) (s : List Char) : Bool :=
  optWord prev != optWord s.head?

/-- All ways to match `r` against a prefix of `s`, in ECMAScript backtracking
priority order (greedy star first, left alternative first).  Each result is the
last consumed character (for later `\b` tests) together with the remaining
suffix.  A star iteration that consumes nothing is discarded, as in the
ECMAScript `RepeatMatcher`.  `fuel` bounds the recursion depth and is chosen
large enough (see `fuelFor`) never to run out on the calls made here. -/
def matchList : Nat → Regex → Option Char → List Char →
    List (Option Char × List Char)
  | 0, _, _, _ => []
  | _ + 1, Regex.eps, p, s => [(p, s)]
  | _ + 1, Regex.cls f, _, s =>
    match s with
    | [] => []
    | c :: cs => if f c then [(some c, cs)] else []
  | fuel + 1, Regex.seq a b, p, s =>
    (matchList fuel a p s).flatMap (fun q => matchList fuel b q.1 q.2)
  | fuel + 1, Regex.alt a b, p, s =>
    matchList fuel a p s ++ matchList fuel b p s
  | _ + 1, Regex.wordB, p, s => if wordBoundaryAt p s then [(p, s)] else []
  | _ + 1, Regex.bos, p, s => if p.isNone then [(p, s)] else []
  | fuel + 1, Regex.star r, p, s =>
    ((matchList fuel r p s).flatMap
      (fun q =>
        if q.2.length < s.length then matchList fuel (Regex.star r) q.1 q.2
        else [])) ++ [(p, s)]

/-- Fuel sufficient for `matchList`: along any recursion path either the regex
shrinks structurally (string no longer) or the string shrinks strictly. -/
def fuelFor (r : Regex) (s : List Char) : Nat :=
  (s.length + 1) * (r.size + 1) + 1

/-- Attempt a match of `pat` starting exactly at the current position.  Returns
the number of consumed characters and the last consumed character of the match
(the highest-priority, i.e. ECMAScript, match). -/
def findMatchAt (pat : Regex) (prev : Option Char) (s : List Char) :
    Option (Nat × Option Char) :=
  match matchList (fuelFor pat s) pat prev s with
  | [] => none
  | q :: _ => some (s.length - q.2.length, q.1)

/-- JS `RegExp.test` / the search loop of `exec`: try each start position from
left to right.  `prev` is the character before the current position. -/
def regexTest (pat : Regex) (prev : Option Char) (s : List Char) : Bool :=
  match findMatchAt pat prev s with
  | some _ => true
  | none =>
    match s with
    | [] => false
    | c :: cs => regexTest pat (some c) cs

/-! ## Pattern combinators -/

/-- Single literal character. -/
def rchar (c : Char) : Regex := Regex.cls (fun x => x == c)

/-- Single literal character under the `i` flag. -/
def rcharI (c : Char) : Regex := Regex.cls (fun x => x.toLower == c.toLower)

/-- Concatenation of a list of regexes. -/
def rseq (l : List Regex) : Regex := l.foldr Regex.seq Regex.eps

/-- Greedy `?`: prefer the present alternative. -/
def ropt (r : Regex) : Regex := Regex.alt r Regex.eps

/-- Literal string. -/
def rstr (s : String) : Regex := rseq (s.data.map rchar)

/-- Literal string under the `i` flag. -/
def rstrI (s : String) : Regex := rseq (s.data.map rcharI)

/-- Exactly `n` copies, JS `{n}`. -/
def rrep (r : Regex) (n : Nat) : Regex := rseq (List.replicate n r)

/-- Greedy `+`. -/
def rplus (r : Regex) : Regex := Regex.seq r (Regex.star r)

/-- Alternation of a list, left-biased like `a|b|c`. -/
def raltList : List Regex → Regex
  | [] => Regex.cls (fun _ => false)
  | [r] => r
  | r :: rs => Regex.alt r (raltList rs)

/-! ## Pattern library (the two tables in `buildRuleSet`) -/

/-- `\d`. -/
def rdigit : Regex := Regex.cls isAsciiDigit

/-- `[a-z]` under the `i` flag. -/
def ralphaI : Regex := Regex.cls isAsciiLetter

/-- `\s`. -/
def rspace : Regex := Regex.cls isJsSpace

/-- Normal CREDIT_CARD:
`\b\d{4}[ -]?\d{4}[ -]?\d{4}[ -]?\d{4}\b|\b\d{4}[ -]?\d{6}[ -]?\d{4,5}\b`. -/
def ccNormalPattern : Regex :=
  let sep := ropt (Regex.cls (fun c => c == ' ' || c == '-'))
  Regex.alt
    (rseq [Regex.wordB, rrep rdigit 4, sep, rrep rdigit 4, sep,
      rrep rdigit 4, sep, rrep rdigit 4, Regex.wordB])
    (rseq [Regex.wordB, rrep rdigit 4, sep, rrep rdigit 6, sep,
      rrep rdigit 4, ropt rdigit, Regex.wordB])

/-- Normal EMAIL (flags `gi`, no trailing `\b`):
`\b[a-z0-9][a-z0-9._-]*@[a-z0-9][\w.-]*\.[a-z]{2,}`. -/
def emailNormalPattern : Regex :=
  let alnum := Regex.cls (fun c => isAsciiLetter c || isAsciiDigit c)
  let localRest := Regex.cls
    (fun c => isAsciiLetter c || isAsciiDigit c || c == '.' || c == '_' || c == '-')
  let hostRest := Regex.cls (fun c => isWordChar c || c == '.' || c == '-')
  rseq [Regex.wordB, alnum, Regex.star localRest, rchar '@', alnum,
    Regex.star hostRest, rchar '.', ralphaI, ralphaI, Regex.star ralphaI]

/-- Normal NAME (flags `gi`):
`(?:^|\.\s+)(?:dear|hi|hello|greetings|hey|hey there)\s+([A-Z][a-z]+(?:\s+[A-Z][a-z]+)+)`.
Under the `i` flag the bracketed letter classes match either case. -/
def nameNormalPattern : Regex :=
  let lead := Regex.alt Regex.bos (Regex.seq (rchar '.') (rplus rspace))
  let greet := raltList [rstrI "dear", rstrI "hi", rstrI "hello",
    rstrI "greetings", rstrI "hey", rstrI "hey there"]
  let capWord := Regex.seq ralphaI (rplus ralphaI)
  rseq [lead, greet, rplus rspace, capWord,
    rplus (Regex.seq (rplus rspace) capWord)]

/-- Normal PHONE:
`\b(?:\+?1[-.\s]?)?(?:\(?\d{3}\)?[-.\s]?)?\d{3}[-.\s]?\d{4}\b`. -/
def phoneNormalPattern : Regex :=
  let sep := Regex.cls (fun c => c == '-' || c == '.' || isJsSpace c)
  rseq [Regex.wordB,
    ropt (rseq [ropt (rchar '+'), rchar '1', ropt sep]),
    ropt (rseq [ropt (rchar '('), rrep rdigit 3, ropt (rchar ')'), ropt sep]),
    rrep rdigit 3, ropt sep, rrep rdigit 4, Regex.wordB]

/-- Normal SSN: `\b\d{3}[ -.]\d{2}[ -.]\d{4}\b`.  Note that in a character
class `[ -.]` is the range from space (U+0020) to `.` (U+002E). -/
def ssnNormalPattern : Regex :=
  let sep := Regex.cls (fun c => ' ' ≤ c && c ≤ '.')
  rseq [Regex.wordB, rrep rdigit 3, sep, rrep rdigit 2, sep,
    rrep rdigit 4, Regex.wordB]

/-- Aggressive CREDIT_CARD:
`\b(?:\d[ -]?){13,19}\b|\*{4}[ -]?\*{4}[ -]?\*{4}[ -]?\d{4}`.
`{13,19}` is encoded as thirteen required copies followed by six optional
ones. -/
def ccAggressivePattern : Regex :=
  let sep := ropt (Regex.cls (fun c => c == ' ' || c == '-'))
  let grp := Regex.seq rdigit sep
  Regex.alt
    (rseq [Regex.wordB, rrep grp 13, rrep (ropt grp) 6, Regex.wordB])
    (rseq [rrep (rchar '*') 4, sep, rrep (rchar '*') 4, sep,
      rrep (rchar '*') 4, sep, rrep rdigit 4])

/-- Aggressive EMAIL (flags `gi`):
`\b[a-z0-9][a-z0-9._-]*\s*(?:@|\[at\]|\(at\))\s*[a-z0-9][\w.-]*\s*(?:\.|\[dot\]|\(dot\))\s*[a-z]{2,}\b`. -/
def emailAggressivePattern : Regex :=
  let alnum := Regex.cls (fun c => isAsciiLetter c || isAsciiDigit c)
  let localRest := Regex.cls
    (fun c => isAsciiLetter c || isAsciiDigit c || c == '.' || c == '_' || c == '-')
  let hostRest := Regex.cls (fun c => isWordChar c || c == '.' || c == '-')
  let atPart := raltList [rchar '@', rstrI "[at]", rstrI "(at)"]
  let dotPart := raltList [rchar '.', rstrI "[dot]", rstrI "(dot)"]
  rseq [Regex.wordB, alnum, Regex.star localRest, Regex.star rspace, atPart,
    Regex.star rspace, alnum, Regex.star hostRest, Regex.star rspace, dotPart,
    Regex.star rspace, ralphaI, ralphaI, Regex.star ralphaI, Regex.wordB]

/-- Aggressive NAME (flags `gi`):
`(?:^|\.\s+|,\s*)(?:dear|hi|hello|greetings|hey|hey there|mr|mrs|ms|dr|prof)\s+([A-Z][a-z]+(?:\s+[A-Z][a-z]+)*)`. -/
def nameAggressivePattern : Regex :=
  let lead := raltList [Regex.bos, Regex.seq (rchar '.') (rplus rspace),
    Regex.seq (rchar ',') (Regex.star rspace)]
  let greet := raltList [rstrI "dear", rstrI "hi", rstrI "hello",
    rstrI "greetings", rstrI "hey", rstrI "hey there", rstrI "mr", rstrI "mrs",
    rstrI "ms", rstrI "dr", rstrI "prof"]
  let capWord := Regex.seq ralphaI (rplus ralphaI)
  rseq [lead, greet, rplus rspace, capWord,
    Regex.star (Regex.seq (rplus rspace) capWord)]

/-- Aggressive PHONE:
`\b(?:\+?1[-.\s]?)?(?:\(?\d{3}\)?[-.\s]?)?\d{3}[-.\s]?\d{4}\b|\b\d{3}[-.\s]\d{4}\b`. -/
def phoneAggressivePattern : Regex :=
  let sep := Regex.cls (fun c => c == '-' || c == '.' || isJsSpace c)
  Regex.alt
    (rseq [Regex.wordB,
      ropt (rseq [ropt (rchar '+'), rchar '1', ropt sep]),
      ropt (rseq [ropt (rchar '('), rrep rdigit 3, ropt (rchar ')'), ropt sep]),
      rrep rdigit 3, ropt sep, rrep rdigit 4, Regex.wordB])
    (rseq [Regex.wordB, rrep rdigit 3, sep, rrep rdigit 4, Regex.wordB])

/-- Aggressive SSN: `\b\d{3}[ -.]?\d{2}[ -.]?\d{4}\b`. -/
def ssnAggressivePattern : Regex :=
  let sep := ropt (Regex.cls (fun c => ' ' ≤ c && c ≤ '.'))
  rseq [Regex.wordB, rrep rdigit 3, sep, rrep rdigit 2, sep,
    rrep rdigit 4, Regex.wordB]

/-! ## Rule set construction (`buildRuleSet`) -/

/-- An active detector: `{ pattern: RegExp; name: string }`. -/
structure Rule where
  pattern : Regex
  name : String

/-- The `normalPatterns` record, as a lookup from rule key to detector
(`rulePatterns[ruleName] !== undefined` becomes `Option`). -/
def normalPatterns (ruleName : String) : Option Rule :=
  if ruleName = "CREDIT_CARD" then some ⟨ccNormalPattern, "CREDIT_CARD"⟩
  else if ruleName = "EMAIL" then some ⟨emailNormalPattern, "EMAIL"⟩
  else if ruleName = "NAME" then some ⟨nameNormalPattern, "PERSON_NAME"⟩
  else if ruleName = "PHONE" then some ⟨phoneNormalPattern, "PHONE_NUMBER"⟩
  else if ruleName = "SSN" then
    some ⟨ssnNormalPattern, "US_SOCIAL_SECURITY_NUMBER"⟩
  else none

/-- The `aggressivePatterns` record. -/
def aggressivePatterns (ruleName : String) : Option Rule :=
  if ruleName = "CREDIT_CARD" then some ⟨ccAggressivePattern, "CREDIT_CARD"⟩
  else if ruleName = "EMAIL" then some ⟨emailAggressivePattern, "EMAIL"⟩
  else if ruleName = "NAME" then some ⟨nameAggressivePattern, "PERSON_NAME"⟩
  else if ruleName = "PHONE" then some ⟨phoneAggressivePattern, "PHONE_NUMBER"⟩
  else if ruleName = "SSN" then
    some ⟨ssnAggressivePattern, "US_SOCIAL_SECURITY_NUMBER"⟩
  else none

/-- `buildRuleSet`.  The `rules` option is a JS object; `Object.entries`
enumerates its string keys in insertion order, so it is modelled as an
insertion-ordered association list.  Custom rules are appended afterwards with
the fallback name `DIGITS`. -/
def buildRuleSet (aggressive : Bool) (rules : List (String × Bool))
    (customRules : List Regex) : List Rule :=
  let rulePatterns := if aggressive then aggressivePatterns else normalPatterns
  let builtins := rules.foldl
    (fun acc p =>
      if p.2 = true then
        match rulePatterns p.1 with
        | some r => acc ++ [r]
        | none => acc
      else acc) []
  builtins ++ customRules.map (fun c => ⟨c, "DIGITS"⟩)

/-- The constructor's `defaultRules` object
`{ CREDIT_CARD: true, EMAIL: true, NAME: true, PHONE: true, SSN: true }`,
with its key insertion order. -/
def defaultRules : List (String × Bool) :=
  [("CREDIT_CARD", true), ("EMAIL", true), ("NAME", true), ("PHONE", true),
   ("SSN", true)]

/-! ## Redactor core -/

/-- `RedactionEvent` from `src/types.ts` (the `action` field is always the
literal `"REDACTED"`). -/
structure RedactionEvent where
  pii_type : String
  action : String
deriving DecidableEq

/-- The event pushed for each match: `{ pii_type: piiType, action: 'REDACTED' }`. -/
def mkEvent (name : String) : RedactionEvent := ⟨name, "REDACTED"⟩

/-- The instance's anonymization state: `anonymizationMap` (key
`` `${piiType}:${normalizedMatch}` `` to token) and `anonymizationCounters`
(pii type to running counter). -/
structure AnonState where
  amap : List (String × String)
  counters : List (String × Nat)
deriving DecidableEq

/-- Both maps cleared, as after `clear()` or at construction. -/
def AnonState.empty : AnonState := ⟨[], []⟩

/-- Constructor options (`RedactorOptions`), restricted to the fields the core
reads.  `rules` is a JS object and is modelled as its insertion-ordered entry
list; `none` means the option was absent. -/
structure RedactorOptions where
  apiKey : Option String := none
  failSilent : Bool := true
  rules : Option (List (String × Bool)) := none
  customRules : List Regex := []
  globalReplaceWith : Option String := none
  anonymize : Bool := false
  aggressive : Bool := false

/-- A constructed `Redactor` instance (its immutable configuration; the mutable
anonymization state is passed explicitly to the operations). -/
structure Redactor where
  apiKey : Option String
  failSilent : Bool
  activeRules : List Rule
  globalReplaceWith : Option String
  anonymize : Bool
  aggressive : Bool

/-- The `Redactor` constructor. -/
def mkRedactor (opts : RedactorOptions) : Redactor :=
  { apiKey := opts.apiKey
    failSilent := opts.failSilent
    activeRules := buildRuleSet opts.aggressive (opts.rules.getD defaultRules)
      opts.customRules
    globalReplaceWith := opts.globalReplaceWith
    anonymize := opts.anonymize
    aggressive := opts.aggressive }

/-- `_getTokenPrefix`. -/
def getTokenPrefix (piiType : String) : String :=
  if piiType = "CREDIT_CARD" then "CREDIT_CARD"
  else if piiType = "EMAIL" then "EMAIL"
  else if piiType = "PERSON_NAME" then "PERSON"
  else if piiType = "PHONE_NUMBER" then "PHONE"
  else if piiType = "US_SOCIAL_SECURITY_NUMBER" then "SSN"
  else "PII"

/-- The `switch (piiType)` giving the fixed per-category replacement label. -/
def fixedReplacement (piiType : String) : String :=
  if piiType = "CREDIT_CARD" then "CREDIT_CARD_NUMBER"
  else if piiType = "EMAIL" then "EMAIL_ADDRESS"
  else if piiType = "PERSON_NAME" then "PERSON_NAME"
  else if piiType = "PHONE_NUMBER" then "PHONE_NUMBER"
  else if piiType = "US_SOCIAL_SECURITY_NUMBER" then "US_SOCIAL_SECURITY_NUMBER"
  else "DIGITS"

/-- Token with the source's `` `${tokenPrefix}_${counter}` `` shape. -/
def mkToken (tokenPre : String) (counter : Nat) : String :=
  tokenPre ++ "_" ++ natToString counter

/-- The anonymization branch of the replacement callback: look the
case-normalized match up in the session map, or allocate the next token of its
category. -/
def allocToken (name : String) (matched : List Char) (st : AnonState) :
    String × AnonState :=
  let normalizedMatch := String.mk (matched.map Char.toLower)
  let key := name ++ ":" ++ normalizedMatch
  match mapGet st.amap key with
  | some tok => (tok, st)
  | none =>
    let counter := (mapGet st.counters name).getD 0 + 1
    let token := mkToken (getTokenPrefix name) counter
    (token, ⟨mapSet st.amap key token, mapSet st.counters name counter⟩)

/-- The replacement chosen for one match (the callback body after the event
push): anonymization token, else global override, else fixed label. -/
def replacerFn (rd : Redactor) (name : String) (matched : List Char)
    (st : AnonState) : String × AnonState :=
  if rd.anonymize then allocToken name matched st
  else
    match rd.globalReplaceWith with
    | some g => (g, st)
    | none => (fixedReplacement name, st)

/-- One `redactedText.replace(clonedPattern, (match) => …)` pass with a global
regex: scan left to right; at a match, push an event, substitute the
replacement and continue after the match (after the following character when
the match is empty); otherwise copy one character.  Returns the new text, the
updated anonymization state and the events pushed during this pass, in
order. -/
def ruleScanF (rd : Redactor) (pat : Regex) (name : String) :
    Nat → Option Char → List Char → AnonState →
    List Char × AnonState × List RedactionEvent
  | 0, _, s, st => (s, st, [])
  | fuel + 1, prev, s, st =>
    match findMatchAt pat prev s with
    | none =>
      match s with
      | [] => ([], st, [])
      | c :: cs =>
        let r := ruleScanF rd pat name fuel (some c) cs st
        (c :: r.1, r.2)
    | some (k, p') =>
      match s with
      | [] =>
        let rep := replacerFn rd name [] st
        (rep.1.data, rep.2, [mkEvent name])
      | c :: cs =>
        if k = 0 then
          let rep := replacerFn rd name [] st
          let r := ruleScanF rd pat name fuel (some c) cs rep.2
          (rep.1.data ++ c :: r.1, r.2.1, mkEvent name :: r.2.2)
        else
          let rep := replacerFn rd name ((c :: cs).take k) st
          let r := ruleScanF rd pat name fuel p' ((c :: cs).drop k) rep.2
          (rep.1.data ++ r.1, r.2.1, mkEvent name :: r.2.2)

/-- A full pass with enough fuel for the whole text: each step of the scan
consumes at least one character (or ends the text). -/
def ruleScan (rd : Redactor) (pat : Regex) (name : String) (prev : Option Char)
    (s : List Char) (st : AnonState) :
    List Char × AnonState × List RedactionEvent :=
  ruleScanF rd pat name (s.length + 1) prev s st

/-- The `for (const { pattern, name } of this.activeRules)` loop: each rule
runs over the cumulative output of the previous ones; events accumulate across
passes. -/
def runRules (rd : Redactor) (rules : List Rule) (s : List Char)
    (st : AnonState) : List Char × AnonState × List RedactionEvent :=
  match rules with
  | [] => (s, st, [])
  | r :: rest =>
    let p := ruleScan rd r.pattern r.name none s st
    let q := runRules rd rest p.1 p.2.1
    (q.1, q.2.1, p.2.2 ++ q.2.2)

/-- Result of `_redactString`, with the number of dashboard dispatches that the
call initiates (`_phoneHome` is fire-and-forget; only its initiation is
modelled). -/
structure StrResult where
  out : String
  state : AnonState
  events : List RedactionEvent
  dispatches : Nat
deriving DecidableEq

/-- Whether `this.apiKey !== null && this.apiKey !== ''`. -/
def hasValidApiKey (rd : Redactor) : Bool :=
  match rd.apiKey with
  | some k => k != ""
  | none => false

/-- `_redactString(text, resetState)`: optionally clear the anonymization
state, run every active rule, and (only when `resetState` is set) initiate one
dashboard dispatch if a valid api key is configured and at least one event was
collected. -/
def redactStringM (rd : Redactor) (text : String) (resetState : Bool)
    (st : AnonState) : StrResult :=
  let st0 := if resetState && rd.anonymize then AnonState.empty else st
  let r := runRules rd rd.activeRules text.data st0
  let dispatches :=
    if resetState && hasValidApiKey rd && decide (0 < r.2.2.length) then 1
    else 0
  ⟨String.mk r.1, r.2.1, r.2.2, dispatches⟩

/-- `redact(text)`: `_redactString(text, true)`. -/
def redact (rd : Redactor) (text : String) (st : AnonState) : StrResult :=
  redactStringM rd text true st

/-- `hasPII(text)`: tests every active pattern against the raw text,
short-circuiting on the first hit.  The method reads only `activeRules`; the
anonymization state is returned untouched and no events are recorded, which the
result records explicitly. -/
def hasPIIRun (rd : Redactor) (text : String) (st : AnonState) :
    Bool × AnonState × List RedactionEvent :=
  (rd.activeRules.any (fun r => regexTest r.pattern none text.data), st, [])

/-! ## Structure walker (`redactObject`) -/

mutual
/-- JSON-representable values, the domain of `redactObject` after the
`JSON.parse(JSON.stringify(obj))` round trip.  Array elements and object
entries keep their order (JS object string keys enumerate in insertion
order). -/
inductive JValue where
  | jstr : String → JValue
  | jnum : Int → JValue
  | jbool : Bool → JValue
  | jnull : JValue
  | jarr : JList → JValue
  | jobj : JFields → JValue
deriving DecidableEq
inductive JList where
  | nil : JList
  | cons : JValue → JList → JList
deriving DecidableEq
inductive JFields where
  | fnil : JFields
  | fcons : String → JValue → JFields → JFields
deriving DecidableEq
end

/-- Result of a walk step: the rebuilt value together with the threaded
anonymization state, the events pushed by the per-leaf `_redactString(str,
false)` calls (in walk order), and the dashboard dispatches those calls
initiated. -/
structure Walk (α : Type) where
  val : α
  state : AnonState
  events : List RedactionEvent
  dispatches : Nat

mutual
/-- `processValue` from `redactObject`: strings are redacted through
`_redactString(str, false)`, arrays element by element, objects entry by entry,
other scalars pass through unchanged. -/
def processValue (rd : Redactor) : JValue → AnonState → Walk JValue
  | JValue.jstr s, st =>
    let r := redactStringM rd s false st
    ⟨JValue.jstr r.out, r.state, r.events, r.dispatches⟩
  | JValue.jnum n, st => ⟨JValue.jnum n, st, [], 0⟩
  | JValue.jbool b, st => ⟨JValue.jbool b, st, [], 0⟩
  | JValue.jnull, st => ⟨JValue.jnull, st, [], 0⟩
  | JValue.jarr xs, st =>
    let r := processJList rd xs st
    ⟨JValue.jarr r.val, r.state, r.events, r.dispatches⟩
  | JValue.jobj fs, st =>
    let r := processJFields rd fs st
    ⟨JValue.jobj r.val, r.state, r.events, r.dispatches⟩

def processJList (rd : Redactor) : JList → AnonState → Walk JList
  | JList.nil, st => ⟨JList.nil, st, [], 0⟩
  | JList.cons v rest, st =>
    let rv := processValue rd v st
    let rr := processJList rd rest rv.state
    ⟨JList.cons rv.val rr.val, rr.state, rv.events ++ rr.events,
      rv.dispatches + rr.dispatches⟩

def processJFields (rd : Redactor) : JFields → AnonState → Walk JFields
  | JFields.fnil, st => ⟨JFields.fnil, st, [], 0⟩
  | JFields.fcons k v rest, st =>
    let rv := processValue rd v st
    let rr := processJFields rd rest rv.state
    ⟨JFields.fcons k rv.val rr.val, rr.state, rv.events ++ rr.events,
      rv.dispatches + rr.dispatches⟩
end

/-- `JSON.parse(JSON.stringify(v))`: on the JSON value domain the round trip
is a structural deep copy, i.e. the identity on the value; the normalization of
non-plain inputs (dates, maps, …) happens before a value enters this domain and
is outside its scope. -/
def jsonClone (v : JValue) : JValue := v

/-- `redactObject(obj)`: deep-clone, clear the anonymization state once for the
entire object when anonymization is on, then walk the clone. -/
def redactObject (rd : Redactor) (v : JValue) (st : AnonState) : Walk JValue :=
  let cloned := jsonClone v
  let st0 := if rd.anonymize then AnonState.empty else st
  processValue rd cloned st0

mutual
/-- The string leaves of a value, in walk order. -/
def leavesV : JValue → List String
  | JValue.jstr s => [s]
  | JValue.jnum _ => []
  | JValue.jbool _ => []
  | JValue.jnull => []
  | JValue.jarr xs => leavesL xs
  | JValue.jobj fs => leavesF fs

def leavesL : JList → List String
  | JList.nil => []
  | JList.cons v rest => leavesV v ++ leavesL rest

def leavesF : JFields → List String
  | JFields.fnil => []
  | JFields.fcons _ v rest => leavesV v ++ leavesF rest
end

/-- Sequential redaction of a list of leaf strings through
`_redactString(·, false)`, threading the anonymization state — the order in
which `redactObject` visits its string leaves. -/
def redactLeaves (rd : Redactor) : List String → AnonState →
    List String × AnonState
  | [], st => ([], st)
  | s :: rest, st =>
    let r := redactStringM rd s false st
    let q := redactLeaves rd rest r.state
    (r.out :: q.1, q.2)

/-! ## Heap model of `redactObject` (for the non-mutation property)

JavaScript objects live on a heap and methods could in principle write through
the reference they receive.  To state that `redactObject` never mutates its
input, the object graph is modelled explicitly: nodes in an address-indexed
store, `JSON.parse(JSON.stringify(·))` as a deep copy into fresh addresses, and
the walk as construction of fresh result nodes (`value.map(...)`, `result = {}`
in the source).  Non-mutation is then the statement that the store is only ever
extended, never updated at an existing address. -/

/-- A heap node of the object graph. -/
inductive HNode where
  | hstr : String → HNode
  | hnum : Int → HNode
  | hbool : Bool → HNode
  | hnull : HNode
  | harr : List Nat → HNode
  | hobj : List (String × Nat) → HNode
deriving DecidableEq

/-- An address-indexed store with an allocation counter. -/
structure Heap where
  store : List (Nat × HNode)
  next : Nat
deriving DecidableEq

/-- First binding of address `a`. -/
def lookupH (store : List (Nat × HNode)) (a : Nat) : Option HNode :=
  match store with
  | [] => none
  | p :: rest => if p.1 = a then some p.2 else lookupH rest a

/-- Allocate a fresh node: append-only, never updates an existing binding. -/
def allocH (h : Heap) (n : HNode) : Heap × Nat :=
  (⟨h.store ++ [(h.next, n)], h.next + 1⟩, h.next)

mutual
/-- Deep copy of the graph under `a` into fresh addresses
(`JSON.parse(JSON.stringify(obj))`).  `fuel` bounds the recursion (JS would
throw on a cyclic input); any sufficiently large fuel gives the full copy. -/
def cloneH : Nat → Heap → Nat → Heap × Nat
  | 0, h, _ => (h, 0)
  | fuel + 1, h, a =>
    match lookupH h.store a with
    | none => allocH h HNode.hnull
    | some (HNode.hstr s) => allocH h (HNode.hstr s)
    | some (HNode.hnum n) => allocH h (HNode.hnum n)
    | some (HNode.hbool b) => allocH h (HNode.hbool b)
    | some HNode.hnull => allocH h HNode.hnull
    | some (HNode.harr elems) =>
      let r := cloneHList fuel h elems
      allocH r.1 (HNode.harr r.2)
    | some (HNode.hobj fields) =>
      let r := cloneHFields fuel h fields
      allocH r.1 (HNode.hobj r.2)

def cloneHList : Nat → Heap → List Nat → Heap × List Nat
  | 0, h, _ => (h, [])
  | _ + 1, h, [] => (h, [])
  | fuel + 1, h, a :: rest =>
    let r := cloneH fuel h a
    let q := cloneHList fuel r.1 rest
    (q.1, r.2 :: q.2)

def cloneHFields : Nat → Heap → List (String × Nat) →
    Heap × List (String × Nat)
  | 0, h, _ => (h, [])
  | _ + 1, h, [] => (h, [])
  | fuel + 1, h, p :: rest =>
    let r := cloneH fuel h p.2
    let q := cloneHFields fuel r.1 rest
    (q.1, (p.1, r.2) :: q.2)
end

mutual
/-- The walk over the (cloned) graph: strings are redacted into fresh nodes,
containers are rebuilt as fresh nodes, other scalars are returned as-is.  The
store is only appended to. -/
def processH (rd : Redactor) : Nat → Heap → Nat → AnonState →
    Heap × Nat × AnonState
  | 0, h, a, st => (h, a, st)
  | fuel + 1, h, a, st =>
    match lookupH h.store a with
    | some (HNode.hstr s) =>
      let r := redactStringM rd s false st
      let al := allocH h (HNode.hstr r.out)
      (al.1, al.2, r.state)
    | some (HNode.harr elems) =>
      let q := processHList rd fuel h elems st
      let al := allocH q.1 (HNode.harr q.2.1)
      (al.1, al.2, q.2.2)
    | some (HNode.hobj fields) =>
      let q := processHFields rd fuel h fields st
      let al := allocH q.1 (HNode.hobj q.2.1)
      (al.1, al.2, q.2.2)
    | _ => (h, a, st)

def processHList (rd : Redactor) : Nat → Heap → List Nat → AnonState →
    Heap × List Nat × AnonState
  | 0, h, _, st => (h, [], st)
  | _ + 1, h, [], st => (h, [], st)
  | fuel + 1, h, a :: rest, st =>
    let r := processH rd fuel h a st
    let q := processHList rd fuel r.1 rest r.2.2
    (q.1, r.2.1 :: q.2.1, q.2.2)

def processHFields (rd : Redactor) : Nat → Heap → List (String × Nat) →
    AnonState → Heap × List (String × Nat) × AnonState
  | 0, h, _, st => (h, [], st)
  | _ + 1, h, [], st => (h, [], st)
  | fuel + 1, h, p :: rest, st =>
    let r := processH rd fuel h p.2 st
    let q := processHFields rd fuel r.1 rest r.2.2
    (q.1, (p.1, r.2.1) :: q.2.1, q.2.2)
end

/-- `redactObject` on the heap model: clone, clear the session state once when
anonymizing, walk the clone. -/
def redactObjectH (rd : Redactor) (fuel : Nat) (h : Heap) (a : Nat)
    (st : AnonState) : Heap × Nat × AnonState :=
  let c := cloneH fuel h a
  let st0 := if rd.anonymize then AnonState.empty else st
  processH rd fuel c.1 c.2 st0

/-- One store extends another by appending (no existing binding is changed). -/
def StoreExtends (s1 s2 : List (Nat × HNode)) : Prop :=
  ∃ ext, s2 = s1 ++ ext

/-! ## Specification-side definitions used by the theorems -/

/-- Case normalization used by the allocator (`match.toLowerCase()`). -/
def normalizeStr (t : String) : String := String.mk (t.data.map Char.toLower)

/-- The allocator's lookup key for a match of category `c` with text `t`. -/
def keyOf (c t : String) : String := c ++ ":" ++ normalizeStr t

/-- The category names that can reach the allocator: the five built-in
detector names plus the shared custom-rule name. -/
def knownNames : List String :=
  ["CREDIT_CARD", "EMAIL", "PERSON_NAME", "PHONE_NUMBER",
   "US_SOCIAL_SECURITY_NUMBER", "DIGITS"]

/-- A category name that contains no `:`, so that the allocator's composed key
determines the category and the normalized text. -/
def colonFree (c : String) : Prop := ':' ∉ c.data

/-- The allocator keys of the matches of category `c` in a match list, in
order. -/
def catKeys (L : List (String × String)) (c : String) : List String :=
  (L.filter (fun p => p.1 == c)).map (fun p => keyOf p.1 p.2)

/-- The distinct elements of a list in order of first occurrence. -/
def firstSeen : List String → List String
  | [] => []
  | x :: xs => x :: firstSeen (xs.filter (fun y => y != x))
termination_by l => l.length
decreasing_by
  calc (xs.filter (fun y => y != x)).length ≤ xs.length := List.length_filter_le _ _
  _ < (x :: xs).length := by simp

/-- Index of the first occurrence of `k` (the list's length when absent). -/
def idxOf : List String → String → Nat
  | [], _ => 0
  | x :: xs, k => if x = k then 0 else idxOf xs k + 1

/-- The token the allocator gives a match of category `c` and text `t` within
a session whose matches are `L`: the category's prefix, an underscore, and one
plus the first-seen rank of the value among the category's distinct values. -/
def tokenAt (L : List (String × String)) (c t : String) : String :=
  mkToken (getTokenPrefix c) (idxOf (firstSeen (catKeys L c)) (keyOf c t) + 1)

/-- A whole session of allocator calls: the `(category, matched text)` pairs of
the matches in processing order, each resolved through `allocToken` with the
threaded state.  This is exactly the sequence of allocator invocations a
session performs, whatever text the detectors matched. -/
def allocRun : List (String × String) → AnonState → List String × AnonState
  | [], st => ([], st)
  | p :: rest, st =>
    let r := allocToken p.1 p.2.data st
    let q := allocRun rest r.2
    (r.1 :: q.1, q.2)

/-- `s2` keeps every value-to-token entry of `s1` (the allocator only ever adds
entries, so session states grow along this order). -/
def MapExtends (s1 s2 : AnonState) : Prop :=
  ∀ k v, mapGet s1.amap k = some v → mapGet s2.amap k = some v

/-- Invariant tying a session state to the list `P` of matches already
processed from a cleared state: each counter holds the number of distinct
values seen in its category, and the map holds exactly the processed keys with
their formula tokens. -/
def StInv (P : List (String × String)) (st : AnonState) : Prop :=
  (∀ c, (mapGet st.counters c).getD 0 = (firstSeen (catKeys P c)).length) ∧
  (∀ c t, colonFree c →
    mapGet st.amap (keyOf c t) =
      (if keyOf c t ∈ catKeys P c then some (tokenAt P c t) else none))

/-- Redactor with only the EMAIL rule. -/
def rdEmailOnly : Redactor := mkRedactor { rules := some [("EMAIL", true)] }

/-- Redactor with only the EMAIL rule and a global replacement override. -/
def rdEmailOverride : Redactor :=
  mkRedactor { rules := some [("EMAIL", true)]
               globalReplaceWith := some "[REDACTED]" }

/-- Redactor with only the EMAIL rule, anonymization, and an override (the
override must lose to anonymization). -/
def rdEmailAnonOverride : Redactor :=
  mkRedactor { rules := some [("EMAIL", true)]
               anonymize := true
               globalReplaceWith := some "[REDACTED]" }

/-- Redactor with only the EMAIL rule and anonymization. -/
def rdEmailAnon : Redactor :=
  mkRedactor { rules := some [("EMAIL", true)]
               anonymize := true }

/-- Redactor with no built-in rules, one literal custom rule, and a dashboard
api key. -/
def rdCustomKey : Redactor :=
  mkRedactor { apiKey := some "k"
               rules := some []
               customRules := [rstr "x"] }

/-- Redactor with two literal custom rules and anonymization. -/
def rdCustomAnon : Redactor :=
  mkRedactor { rules := some []
               customRules := [rstr "x-9", rstr "q"]
               anonymize := true }

/-- Redactor with one literal custom rule and anonymization. -/
def rdCustomAnon1 : Redactor :=
  mkRedactor { rules := some []
               customRules := [rstr "x"]
               anonymize := true }

/-- The spec's object-redaction example
`{a: "anne@example.com", b: "anne@example.com", c: "bob@example.com"}`. -/
def vEmailExample : JValue :=
  JValue.jobj (JFields.fcons "a" (JValue.jstr "anne@example.com")
    (JFields.fcons "b" (JValue.jstr "anne@example.com")
      (JFields.fcons "c" (JValue.jstr "bob@example.com") JFields.fnil)))

/-- Its expected redaction `{a: "EMAIL_1", b: "EMAIL_1", c: "EMAIL_2"}`. -/
def vEmailExpected : JValue :=
  JValue.jobj (JFields.fcons "a" (JValue.jstr "EMAIL_1")
    (JFields.fcons "b" (JValue.jstr "EMAIL_1")
      (JFields.fcons "c" (JValue.jstr "EMAIL_2") JFields.fnil)))

/-- Redactor with one literal custom rule, no built-ins, no anonymization, no
override. -/
def rdCustomPlain : Redactor :=
  mkRedactor { rules := some []
               customRules := [rstr "x-9"] }

/-- The object `{a: "x"}` used to exercise event production in `redactObject`. -/
def vSingleX : JValue :=
  JValue.jobj (JFields.fcons "a" (JValue.jstr "x") JFields.fnil)

/-- Value of a decimal digit list, used to invert `natDigits`. -/
def digitsVal (l : List Char) : Nat :=
  l.foldl (fun acc c => acc * 10 + (c.toNat - 48)) 0

/-- Redactor with entirely default options (all five built-in rules). -/
def rdDefault : Redactor := mkRedactor {}

/-- A concrete allocator session used as a witness: two case-insensitively
equal EMAIL values, one other EMAIL value, one PHONE value. -/
def lc1Session : List (String × String) :=
  [("EMAIL", "Anne@X.com"), ("PHONE_NUMBER", "555-1234"),
   ("EMAIL", "anne@x.COM"), ("EMAIL", "bob@x.com")]

/-! ## Theorems -/

/-- **C3** — For every two independent top-level redact calls on the same
instance with anonymization enabled, and for any inputs, each call starts a
fresh session: the anonymization state is cleared at the start of the call, so
the result (output, post-state, events, dispatches) does not depend on any
earlier call's mappings or counters. -/
theorem c3_redact_fresh_session (rd : Redactor) (text : String)
    (st : AnonState) (h : rd.anonymize = true) :
    redact rd text st = redact rd text AnonState.empty := by
  simp [redact, redactStringM, h]

/-- Witness for C3 at a concrete instance: a prior state holding mappings and
counters from an earlier call does not influence the next `redact` call. -/
theorem c3_redact_fresh_session_witness :
    rdEmailAnon.anonymize = true ∧
    redact rdEmailAnon "bob@x.com"
        ⟨[("EMAIL:anne@x.com", "EMAIL_1")], [("EMAIL", 1)]⟩ =
      redact rdEmailAnon "bob@x.com" AnonState.empty :=
  ⟨by decide,
   c3_redact_fresh_session rdEmailAnon "bob@x.com"
     ⟨[("EMAIL:anne@x.com", "EMAIL_1")], [("EMAIL", 1)]⟩ (by decide)⟩

/-- **C8** — Replacement precedence: the replacement for a match is the
anonymization token when anonymization is enabled, else the global override
verbatim when configured, else the detector's fixed label; demonstrated
end-to-end on the spec's examples (override present, override absent, and
anonymization beating the override). -/
theorem c8_replacement_precedence :
    (∀ (rd : Redactor) (name : String) (m : List Char) (st : AnonState),
      replacerFn rd name m st =
        if rd.anonymize = true then allocToken name m st
        else
          match rd.globalReplaceWith with
          | some g => (g, st)
          | none => (fixedReplacement name, st)) ∧
    (redact rdEmailOverride "test@example.com" AnonState.empty).out =
      "[REDACTED]" ∧
    (redact rdEmailOnly "test@example.com" AnonState.empty).out =
      "EMAIL_ADDRESS" ∧
    (redact rdEmailAnonOverride "test@example.com" AnonState.empty).out =
      "EMAIL_1" := by
  refine ⟨fun rd name m st => ?_, by decide, by decide, by decide⟩
  simp [replacerFn]

/-- **C9** — `hasPII` returns `true` exactly when some active detector's
pattern matches the raw text, and it leaves the anonymization state untouched
and records no events. -/
theorem c9_hasPII_iff (rd : Redactor) (text : String) (st : AnonState) :
    (hasPIIRun rd text st).2.1 = st ∧
    (hasPIIRun rd text st).2.2 = ([] : List RedactionEvent) ∧
    ((hasPIIRun rd text st).1 = true ↔
      ∃ r ∈ rd.activeRules, regexTest r.pattern none text.data = true) := by
  refine ⟨rfl, rfl, ?_⟩
  simp [hasPIIRun, List.any_eq_true]

/-- The built-in loop of `buildRuleSet` appends, in entry order, the table hit
of every enabled entry. -/
theorem buildFoldEq (tbl : String → Option Rule) :
    ∀ (rules : List (String × Bool)) (acc : List Rule),
      rules.foldl
        (fun acc p =>
          if p.2 = true then
            match tbl p.1 with
            | some r => acc ++ [r]
            | none => acc
          else acc) acc =
      acc ++ rules.filterMap (fun p => if p.2 = true then tbl p.1 else none) := by
  intro rules
  induction rules with
  | nil => intro acc; simp
  | cons p rest ih =>
    intro acc
    by_cases hp : p.2 = true
    · cases htbl : tbl p.1 with
      | none => simp [List.foldl_cons, List.filterMap_cons, hp, htbl, ih]
      | some r => simp [List.foldl_cons, List.filterMap_cons, hp, htbl, ih]
    · simp [List.foldl_cons, List.filterMap_cons, hp, ih]

/-- **C4, counterexample** — the Active Rule Set does *not* order enabled
built-ins canonically regardless of the caller's key order: with the caller's
map `{SSN: true, EMAIL: true}` the SSN detector comes first, not the EMAIL
detector as the canonical order CREDIT_CARD, EMAIL, NAME, PHONE, SSN would
require. -/
theorem c4_counterexample :
    (buildRuleSet false [("SSN", true), ("EMAIL", true)] []).map Rule.name =
      ["US_SOCIAL_SECURITY_NUMBER", "EMAIL"] ∧
    (buildRuleSet false [("SSN", true), ("EMAIL", true)] []).map Rule.name ≠
      ["EMAIL", "US_SOCIAL_SECURITY_NUMBER"] :=
  ⟨by decide, by decide⟩

/-- **C4, amended** — the Active Rule Set contains the enabled built-in
detectors in the order in which their keys appear in the caller's map (for the
constructor's default map this is the canonical order CREDIT_CARD, EMAIL,
NAME, PHONE, SSN), followed by one detector per custom pattern in input
order. -/
theorem c4_amended_rule_order (aggressive : Bool)
    (rules : List (String × Bool)) (customRules : List Regex) :
    buildRuleSet aggressive rules customRules =
      (rules.filterMap (fun p =>
        if p.2 = true then
          (if aggressive then aggressivePatterns else normalPatterns) p.1
        else none)) ++ customRules.map (fun c => ⟨c, "DIGITS"⟩) ∧
    (buildRuleSet aggressive defaultRules customRules).map Rule.name =
      ["CREDIT_CARD", "EMAIL", "PERSON_NAME", "PHONE_NUMBER",
       "US_SOCIAL_SECURITY_NUMBER"] ++ customRules.map (fun _ => "DIGITS") := by
  constructor
  · simp only [buildRuleSet]
    rw [buildFoldEq]
    simp
  · simp only [buildRuleSet]
    rw [buildFoldEq]
    cases aggressive <;>
      simp [defaultRules, normalPatterns, aggressivePatterns,
        Function.comp_def, List.map_const']

/-- **C10** — Custom patterns all share the fallback category `DIGITS`: each
custom detector is named `DIGITS`, the fixed replacement for that category is
the literal `DIGITS`, its anonymization prefix is `PII`, a custom match's
event carries `pii_type` `DIGITS`, and — because the category (and with it the
counter) is shared — two different custom patterns draw tokens `PII_1`,
`PII_2` from one counter. -/
theorem c10_custom_rules_category :
    (∀ (aggressive : Bool) (rules : List (String × Bool)) (cs : List Regex),
      buildRuleSet aggressive rules cs =
        buildRuleSet aggressive rules [] ++
          cs.map (fun c => ⟨c, "DIGITS"⟩)) ∧
    fixedReplacement "DIGITS" = "DIGITS" ∧
    getTokenPrefix "DIGITS" = "PII" ∧
    (redact rdCustomPlain "ab x-9 cd" AnonState.empty).out = "ab DIGITS cd" ∧
    (redact rdCustomPlain "ab x-9 cd" AnonState.empty).events =
      [⟨"DIGITS", "REDACTED"⟩] ∧
    (redact rdCustomAnon "x-9 then q" AnonState.empty).out =
      "PII_1 then PII_2" := by
  refine ⟨fun aggressive rules cs => ?_, by decide, by decide, by decide,
    by decide, by decide⟩
  simp [buildRuleSet]

/-- Per-leaf `_redactString(str, false)` calls never initiate a dispatch
(`resetState` is `false`), so no walk step does. -/
theorem redactStringM_false_dispatches (rd : Redactor) (s : String)
    (st : AnonState) : (redactStringM rd s false st).dispatches = 0 := by
  simp [redactStringM]

mutual
theorem processValue_dispatches (rd : Redactor) :
    ∀ (v : JValue) (st : AnonState), (processValue rd v st).dispatches = 0
  | JValue.jstr s, st => by
    simp [processValue, redactStringM_false_dispatches]
  | JValue.jnum n, st => rfl
  | JValue.jbool b, st => rfl
  | JValue.jnull, st => rfl
  | JValue.jarr xs, st => by
    simp [processValue, processJList_dispatches rd xs st]
  | JValue.jobj fs, st => by
    simp [processValue, processJFields_dispatches rd fs st]

theorem processJList_dispatches (rd : Redactor) :
    ∀ (l : JList) (st : AnonState), (processJList rd l st).dispatches = 0
  | JList.nil, st => rfl
  | JList.cons v rest, st => by
    simp [processJList, processValue_dispatches rd v st,
      processJList_dispatches rd rest (processValue rd v st).state]

theorem processJFields_dispatches (rd : Redactor) :
    ∀ (f : JFields) (st : AnonState), (processJFields rd f st).dispatches = 0
  | JFields.fnil, st => rfl
  | JFields.fcons k v rest, st => by
    simp [processJFields, processValue_dispatches rd v st,
      processJFields_dispatches rd rest (processValue rd v st).state]
end

/-- The dispatch guard in `_redactString` as an if-and-only-if condition. -/
theorem dispatchIfEq (b : Bool) (l : List RedactionEvent) :
    (if (true && b && decide (0 < l.length)) = true then 1 else 0) =
      (if b = true ∧ l ≠ [] then 1 else 0) := by
  cases b <;> cases l <;> simp

/-- **C5, amended** — only top-level `redact` calls dispatch: such a call
initiates exactly one dispatch when a valid api key is configured and the call
collected at least one event, and none otherwise; a `redactObject` call never
initiates a dispatch, even when its leaves produce events. -/
theorem c5_amended_dispatch_policy :
    (∀ (rd : Redactor) (text : String) (st : AnonState),
      (redact rd text st).dispatches =
        if hasValidApiKey rd = true ∧ (redact rd text st).events ≠ [] then 1
        else 0) ∧
    (∀ (rd : Redactor) (v : JValue) (st : AnonState),
      (redactObject rd v st).dispatches = 0) := by
  constructor
  · intro rd text st
    simp only [redact, redactStringM]
    exact dispatchIfEq _ _
  · intro rd v st
    simp [redactObject, jsonClone, processValue_dispatches]

/-- **C5, counterexample** — a `redactObject` session on an instance with a
configured (valid) audit credential that produces one detection event initiates
zero dispatches, not one. -/
theorem c5_counterexample :
    hasValidApiKey rdCustomKey = true ∧
    (redactObject rdCustomKey vSingleX AnonState.empty).events.length = 1 ∧
    (redactObject rdCustomKey vSingleX AnonState.empty).dispatches = 0 :=
  ⟨by decide, by decide, by decide⟩

/-- A pass whose pattern matches nowhere in the text copies the text verbatim
and touches neither the state nor the events. -/
theorem ruleScanF_no_match (rd : Redactor) (pat : Regex) (name : String) :
    ∀ (fuel : Nat) (prev : Option Char) (s : List Char) (st : AnonState),
      regexTest pat prev s = false →
      ruleScanF rd pat name fuel prev s st = (s, st, []) := by
  intro fuel
  induction fuel with
  | zero => intro prev s st _; rfl
  | succ fuel ih =>
    intro prev s st h
    cases s with
    | nil =>
      rw [regexTest.eq_1] at h
      cases hf : findMatchAt pat prev [] with
      | some q => rw [hf] at h; simp at h
      | none => simp [ruleScanF, hf]
    | cons c cs =>
      rw [regexTest.eq_2] at h
      cases hf : findMatchAt pat prev (c :: cs) with
      | some q => rw [hf] at h; simp at h
      | none =>
        rw [hf] at h
        simp [ruleScanF, hf, ih (some c) cs st h]

/-- If no active rule matches the text, the whole rule loop returns the text
unchanged with no events. -/
theorem runRules_no_match (rd : Redactor) :
    ∀ (rules : List Rule) (s : List Char) (st : AnonState),
      (∀ r ∈ rules, regexTest r.pattern none s = false) →
      runRules rd rules s st = (s, st, []) := by
  intro rules
  induction rules with
  | nil => intro s st _; rfl
  | cons r rest ih =>
    intro s st h
    have h1 : regexTest r.pattern none s = false := h r (by simp)
    have h2 : ∀ q ∈ rest, regexTest q.pattern none s = false := by
      intro q hq; exact h q (by simp [hq])
    simp [runRules, ruleScan, ruleScanF_no_match rd r.pattern r.name _ none s st h1,
      ih s st h2]

/-- **C7** — For every configuration, `redact(text)` returns `text` unchanged
when no active detector finds a match in it. -/
theorem c7_no_match_passthrough (rd : Redactor) (text : String)
    (st : AnonState)
    (h : ∀ r ∈ rd.activeRules, regexTest r.pattern none text.data = false) :
    (redact rd text st).out = text := by
  simp [redact, redactStringM, runRules_no_match rd rd.activeRules text.data _ h]

/-- Witness for C7: the default configuration finds nothing in `"hello"` and
returns it unchanged. -/
theorem c7_no_match_passthrough_witness :
    (∀ r ∈ rdDefault.activeRules,
      regexTest r.pattern none "hello".data = false) ∧
    (redact rdDefault "hello" AnonState.empty).out = "hello" :=
  ⟨by decide, c7_no_match_passthrough rdDefault "hello" AnonState.empty (by decide)⟩

/-- `StoreExtends` is reflexive. -/
theorem storeExtends_refl (s : List (Nat × HNode)) : StoreExtends s s :=
  ⟨[], by simp⟩

/-- `StoreExtends` is transitive. -/
theorem storeExtends_trans {s1 s2 s3 : List (Nat × HNode)}
    (h1 : StoreExtends s1 s2) (h2 : StoreExtends s2 s3) :
    StoreExtends s1 s3 := by
  obtain ⟨e1, he1⟩ := h1
  obtain ⟨e2, he2⟩ := h2
  exact ⟨e1 ++ e2, by simp [he1, he2]⟩

/-- Allocation only appends to the store. -/
theorem allocH_extends (h : Heap) (n : HNode) :
    StoreExtends h.store (allocH h n).1.store :=
  ⟨[(h.next, n)], rfl⟩

/-- A binding survives any append-only extension of the store. -/
theorem storeExtends_lookup {s1 s2 : List (Nat × HNode)}
    (h : StoreExtends s1 s2) (b : Nat) (n : HNode)
    (hl : lookupH s1 b = some n) : lookupH s2 b = some n := by
  obtain ⟨e, he⟩ := h
  subst he
  induction s1 with
  | nil => simp [lookupH] at hl
  | cons p rest ih =>
    by_cases hp : p.1 = b
    · simp [lookupH, hp] at hl ⊢; exact hl
    · simp [lookupH, hp] at hl ⊢; exact ih hl

/-- The JSON round-trip clone only appends fresh nodes to the store. -/
theorem cloneH_extends :
    ∀ fuel : Nat,
      (∀ (h : Heap) (a : Nat), StoreExtends h.store (cloneH fuel h a).1.store) ∧
      (∀ (h : Heap) (l : List Nat),
        StoreExtends h.store (cloneHList fuel h l).1.store) ∧
      (∀ (h : Heap) (f : List (String × Nat)),
        StoreExtends h.store (cloneHFields fuel h f).1.store) := by
  intro fuel
  induction fuel with
  | zero =>
    exact ⟨fun h _ => storeExtends_refl _, fun h _ => storeExtends_refl _,
      fun h _ => storeExtends_refl _⟩
  | succ fuel ih =>
    obtain ⟨ihV, ihL, ihF⟩ := ih
    refine ⟨fun h a => ?_, fun h l => ?_, fun h f => ?_⟩
    · cases hl : lookupH h.store a with
      | none => simp only [cloneH, hl]; exact allocH_extends h _
      | some node =>
        cases node <;> simp only [cloneH, hl] <;>
          first
          | exact allocH_extends h _
          | exact storeExtends_trans (by first | exact ihL h _ | exact ihF h _)
              (allocH_extends _ _)
    · cases l with
      | nil => exact storeExtends_refl _
      | cons a rest =>
        exact storeExtends_trans (ihV h a)
          (ihL (cloneH fuel h a).1 rest)
    · cases f with
      | nil => exact storeExtends_refl _
      | cons p rest =>
        exact storeExtends_trans (ihV h p.2)
          (ihF (cloneH fuel h p.2).1 rest)

/-- The walk only appends fresh result nodes to the store. -/
theorem processH_extends (rd : Redactor) :
    ∀ fuel : Nat,
      (∀ (h : Heap) (a : Nat) (st : AnonState),
        StoreExtends h.store (processH rd fuel h a st).1.store) ∧
      (∀ (h : Heap) (l : List Nat) (st : AnonState),
        StoreExtends h.store (processHList rd fuel h l st).1.store) ∧
      (∀ (h : Heap) (f : List (String × Nat)) (st : AnonState),
        StoreExtends h.store (processHFields rd fuel h f st).1.store) := by
  intro fuel
  induction fuel with
  | zero =>
    exact ⟨fun h _ _ => storeExtends_refl _, fun h _ _ => storeExtends_refl _,
      fun h _ _ => storeExtends_refl _⟩
  | succ fuel ih =>
    obtain ⟨ihV, ihL, ihF⟩ := ih
    refine ⟨fun h a st => ?_, fun h l st => ?_, fun h f st => ?_⟩
    · cases hl : lookupH h.store a with
      | none => simp only [processH, hl]; exact storeExtends_refl _
      | some node =>
        cases node <;> simp only [processH, hl]
        · exact allocH_extends h _
        · exact storeExtends_refl _
        · exact storeExtends_refl _
        · exact storeExtends_refl _
        · exact storeExtends_trans (ihL h _ st) (allocH_extends _ _)
        · exact storeExtends_trans (ihF h _ st) (allocH_extends _ _)
    · cases l with
      | nil => exact storeExtends_refl _
      | cons a rest =>
        exact storeExtends_trans (ihV h a st)
          (ihL (processH rd fuel h a st).1 rest (processH rd fuel h a st).2.2)
    · cases f with
      | nil => exact storeExtends_refl _
      | cons p rest =>
        exact storeExtends_trans (ihV h p.2 st)
          (ihF (processH rd fuel h p.2 st).1 rest
            (processH rd fuel h p.2 st).2.2)

/-- **C6** — `redactObject` never mutates its input: in the heap model of the
object graph, the call only ever appends freshly allocated nodes (the clone and
the rebuilt result), so the store before the call is an initial segment of the
store after it and every pre-existing binding — in particular every node of
the input object — is unchanged; the input read back after the call is
therefore deeply equal to its before-call snapshot. -/
theorem c6_redactObject_no_mutation (rd : Redactor) (fuel : Nat) (h : Heap)
    (a : Nat) (st : AnonState) :
    StoreExtends h.store (redactObjectH rd fuel h a st).1.store ∧
    (∀ (b : Nat) (n : HNode), lookupH h.store b = some n →
      lookupH (redactObjectH rd fuel h a st).1.store b = some n) := by
  have hext : StoreExtends h.store (redactObjectH rd fuel h a st).1.store := by
    unfold redactObjectH
    exact storeExtends_trans ((cloneH_extends fuel).1 h a)
      ((processH_extends rd fuel).1 _ _ _)
  exact ⟨hext, fun b n hb => storeExtends_lookup hext b n hb⟩

/-- Witness for C6: a one-node heap holding the string `"p x q"` at address 0,
redacted with a custom rule by an instance holding an api key; the input
binding is untouched after the call. -/
theorem c6_redactObject_no_mutation_witness :
    lookupH
      (redactObjectH rdCustomKey 5 ⟨[(0, HNode.hstr "p x q")], 1⟩ 0
        AnonState.empty).1.store 0 = some (HNode.hstr "p x q") :=
  (c6_redactObject_no_mutation rdCustomKey 5 ⟨[(0, HNode.hstr "p x q")], 1⟩ 0
    AnonState.empty).2 0 (HNode.hstr "p x q") (by decide)

/-- Folding `digitsVal` over an appended digit. -/
theorem digitsVal_append (l : List Char) (c : Char) :
    digitsVal (l ++ [c]) = digitsVal l * 10 + (c.toNat - 48) := by
  simp [digitsVal, List.foldl_append]

/-- `digitChar` of a digit evaluates back to the digit. -/
theorem digitChar_toNat {k : Nat} (hk : k < 10) :
    (digitChar k).toNat - 48 = k := by
  interval_cases k <;> decide

/-- `natDigitsAux` is inverted by `digitsVal` whenever the fuel suffices. -/
theorem natDigitsAux_val : ∀ (fuel n : Nat), n ≤ fuel →
    digitsVal (natDigitsAux fuel n) = n := by
  intro fuel
  induction fuel with
  | zero =>
    intro n hn
    interval_cases n
    decide
  | succ fuel ih =>
    intro n hn
    by_cases h10 : n < 10
    · simp [natDigitsAux, h10, digitsVal, digitChar_toNat h10]
    · have hdiv : n / 10 ≤ fuel := by
        have := Nat.div_lt_self (by omega : 0 < n) (by omega : 1 < 10)
        omega
      have hmod : n % 10 < 10 := Nat.mod_lt _ (by omega)
      simp [natDigitsAux, h10, digitsVal_append, ih (n / 10) hdiv,
        digitChar_toNat hmod]
      omega

/-- The decimal rendering of counters is injective. -/
theorem natToString_inj {a b : Nat} (h : natToString a = natToString b) :
    a = b := by
  have hd : natDigits a = natDigits b := by
    have := congrArg String.data h
    simpa [natToString] using this
  have ha := natDigitsAux_val a a (Nat.le_refl a)
  have hb := natDigitsAux_val b b (Nat.le_refl b)
  rw [natDigits] at hd
  rw [natDigits] at hd
  rw [hd] at ha
  omega

/-- Strings with equal character data are equal. -/
theorem stringDataEq {s1 s2 : String} (h : s1.data = s2.data) : s1 = s2 := by
  cases s1
  cases s2
  exact congrArg String.mk h

/-- Tokens with the same prefix and different counters differ. -/
theorem mkToken_inj_num {p : String} {a b : Nat}
    (h : mkToken p a = mkToken p b) : a = b := by
  have hd := congrArg String.data h
  simp only [mkToken, String.data_append] at hd
  have hc := List.append_cancel_left hd
  have hns : (natToString a).data = (natToString b).data := by simpa using hc
  exact natToString_inj (stringDataEq hns)

/-- The first two characters of a token are those of its prefix. -/
theorem mkToken_take2 (p : String) (n : Nat) (hp : 2 ≤ p.data.length) :
    (mkToken p n).data.take 2 = p.data.take 2 := by
  simp only [mkToken, String.data_append]
  have h1 : 2 ≤ (p.data ++ ['_']).length := by
    simp only [List.length_append, List.length_cons, List.length_nil]
    omega
  rw [List.take_append_of_le_length h1, List.take_append_of_le_length hp]

/-- Tokens of two different known categories always differ: the six category
prefixes are pairwise distinguished within their first two characters. -/
theorem tokenCross_ne {c1 c2 : String} (h1 : c1 ∈ knownNames)
    (h2 : c2 ∈ knownNames) (hne : c1 ≠ c2) (a b : Nat) :
    mkToken (getTokenPrefix c1) a ≠ mkToken (getTokenPrefix c2) b := by
  intro heq
  have ht := congrArg (fun s : String => s.data.take 2) heq
  simp only at ht
  fin_cases h1 <;> fin_cases h2 <;>
    first
    | exact hne rfl
    | (rw [mkToken_take2 _ _ (by decide), mkToken_take2 _ _ (by decide)] at ht
       exact absurd ht (by decide))

/-- `mapSet` then `mapGet`: the set key reads back the new value, any other
key is unaffected. -/
theorem mapGet_set {α : Type} (m : List (String × α)) (k : String) (v : α)
    (q : String) :
    mapGet (mapSet m k v) q = if q = k then some v else mapGet m q := by
  induction m with
  | nil =>
    simp only [mapSet, mapGet]
    by_cases hq : q = k
    · subst hq; simp
    · rw [if_neg (fun h => hq h.symm), if_neg hq]
  | cons p rest ih =>
    simp only [mapSet]
    by_cases hp : p.1 = k
    · rw [if_pos hp]
      simp only [mapGet]
      by_cases hq : q = k
      · subst hq; simp [hp]
      · rw [if_neg (fun h => hq h.symm), if_neg hq,
          if_neg (fun h : p.1 = q => hq (hp.symm.trans h).symm)]
    · rw [if_neg hp]
      simp only [mapGet]
      by_cases hpq : p.1 = q
      · rw [if_pos hpq, if_pos hpq,
          if_neg (fun h : q = k => hp (hpq.trans h))]
      · rw [if_neg hpq, if_neg hpq, ih]

/-- Splitting an append at the first `:` when neither left part contains
one. -/
theorem colonSplit : ∀ (l1 l2 r1 r2 : List Char), ':' ∉ l1 → ':' ∉ l2 →
    l1 ++ ':' :: r1 = l2 ++ ':' :: r2 → l1 = l2 ∧ r1 = r2 := by
  intro l1
  induction l1 with
  | nil =>
    intro l2 r1 r2 _ h2 he
    cases l2 with
    | nil => simpa using he
    | cons y ys =>
      simp only [List.nil_append, List.cons_append, List.cons.injEq] at he
      exact absurd (by rw [← he.1]; exact List.mem_cons_self ':' ys : ':' ∈ y :: ys) h2
  | cons x xs ih =>
    intro l2 r1 r2 h1 h2 he
    cases l2 with
    | nil =>
      simp only [List.nil_append, List.cons_append, List.cons.injEq] at he
      exact absurd (by rw [he.1]; exact List.mem_cons_self ':' xs : ':' ∈ x :: xs) h1
    | cons y ys =>
      simp only [List.cons_append, List.cons.injEq] at he
      have hr := ih ys r1 r2 (by simp at h1; exact h1.2)
        (by simp at h2; exact h2.2) he.2
      exact ⟨by simp [he.1, hr.1], hr.2⟩

/-- The character data of an allocator key. -/
theorem keyOf_data (c t : String) :
    (keyOf c t).data = c.data ++ ':' :: (normalizeStr t).data := by
  simp [keyOf, String.data_append]

/-- The allocator key determines the category and the normalized text, for
colon-free category names. -/
theorem keyOf_inj {c1 c2 t1 t2 : String} (h1 : colonFree c1)
    (h2 : colonFree c2) (he : keyOf c1 t1 = keyOf c2 t2) :
    c1 = c2 ∧ normalizeStr t1 = normalizeStr t2 := by
  have hd : c1.data ++ ':' :: (normalizeStr t1).data =
      c2.data ++ ':' :: (normalizeStr t2).data := by
    rw [← keyOf_data, ← keyOf_data]
    exact congrArg String.data he
  have hs := colonSplit c1.data c2.data (normalizeStr t1).data
    (normalizeStr t2).data h1 h2 hd
  exact ⟨stringDataEq hs.1, stringDataEq hs.2⟩

/-- `firstSeen` has the same members as the list. -/
theorem mem_firstSeen : ∀ (l : List String) (k : String),
    k ∈ firstSeen l ↔ k ∈ l := by
  intro l
  induction l using firstSeen.induct with
  | case1 => simp [firstSeen]
  | case2 x xs ih =>
    intro k
    by_cases hk : k = x
    · simp [firstSeen, hk]
    · simp [firstSeen, hk, ih k, List.mem_filter]

/-- Appending one element extends `firstSeen` at the end, or not at all when
the element was already present. -/
theorem firstSeen_append_one : ∀ (l : List String) (x : String),
    firstSeen (l ++ [x]) =
      if x ∈ l then firstSeen l else firstSeen l ++ [x] := by
  intro l
  induction l using firstSeen.induct with
  | case1 => intro x; simp [firstSeen]
  | case2 y ys ih =>
    intro x
    by_cases hxy : x = y
    · subst hxy
      simp only [List.cons_append, firstSeen, List.filter_append]
      simp [List.mem_cons]
    · simp only [List.cons_append, firstSeen, List.filter_append]
      have hfx : List.filter (fun z => z != y) [x] = [x] := by simp [hxy]
      rw [hfx, ih x]
      by_cases hxys : x ∈ List.filter (fun z => z != y) ys
      · have hxys2 : x ∈ ys := (List.mem_filter.mp hxys).1
        simp [hxys, hxys2, List.mem_cons, hxy]
      · have hxys2 : x ∉ ys := by
          intro hmem
          exact hxys (List.mem_filter.mpr ⟨hmem, by simp [hxy]⟩)
        simp [hxys, hxys2, List.mem_cons, hxy, firstSeen]

/-- The index of a member is unaffected by appending. -/
theorem idxOf_append_mem : ∀ (l1 l2 : List String) (k : String), k ∈ l1 →
    idxOf (l1 ++ l2) k = idxOf l1 k := by
  intro l1
  induction l1 with
  | nil => intro l2 k hk; simp at hk
  | cons x xs ih =>
    intro l2 k hk
    by_cases hx : x = k
    · simp [idxOf, hx]
    · have hk2 : k ∈ xs := by
        rcases List.mem_cons.mp hk with h | h
        · exact absurd h.symm hx
        · exact h
      simp [idxOf, hx, ih l2 k hk2]

/-- The index of a freshly appended element is the original length. -/
theorem idxOf_append_self : ∀ (l : List String) (k : String), k ∉ l →
    idxOf (l ++ [k]) k = l.length := by
  intro l
  induction l with
  | nil => intro k _; simp [idxOf]
  | cons x xs ih =>
    intro k hk
    have hx : ¬x = k := fun h => hk (by simp [h])
    have hk2 : k ∉ xs := fun h => hk (by simp [h])
    simp [idxOf, hx, ih k hk2]

/-- On members of a list, `idxOf` is injective. -/
theorem idxOf_inj : ∀ (l : List String) (k1 k2 : String), k1 ∈ l → k2 ∈ l →
    idxOf l k1 = idxOf l k2 → k1 = k2 := by
  intro l
  induction l with
  | nil => intro k1 k2 h1; simp at h1
  | cons x xs ih =>
    intro k1 k2 h1 h2 he
    by_cases hx1 : x = k1
    · by_cases hx2 : x = k2
      · exact hx1.symm.trans hx2
      · simp [idxOf, hx1, hx2] at he
        by_cases hk : k1 = k2
        · exact hk
        · simp [hk] at he
    · by_cases hx2 : x = k2
      · simp [idxOf, hx1, hx2] at he
        exact he.symm
      · have h1m : k1 ∈ xs := by
          rcases List.mem_cons.mp h1 with h | h
          · exact absurd h.symm hx1
          · exact h
        have h2m : k2 ∈ xs := by
          rcases List.mem_cons.mp h2 with h | h
          · exact absurd h.symm hx2
          · exact h
        simp [idxOf, hx1, hx2] at he
        exact ih k1 k2 h1m h2m he

/-- `catKeys` distributes over append. -/
theorem catKeys_append (P Q : List (String × String)) (c : String) :
    catKeys (P ++ Q) c = catKeys P c ++ catKeys Q c := by
  simp [catKeys, List.filter_append]

/-- `catKeys` of a one-match list. -/
theorem catKeys_single (c0 t0 c : String) :
    catKeys [(c0, t0)] c = if c0 = c then [keyOf c0 t0] else [] := by
  by_cases h : c0 = c <;> simp [catKeys, h]

/-- The token formula of an already-seen match is unchanged by processing a
further match. -/
theorem tokenAt_stable (P : List (String × String)) (q : String × String)
    (c t : String) (hmem : keyOf c t ∈ catKeys P c) :
    tokenAt (P ++ [q]) c t = tokenAt P c t := by
  unfold tokenAt
  rw [catKeys_append]
  have hq : catKeys [q] c = if q.1 = c then [keyOf q.1 q.2] else [] := by
    have := catKeys_single q.1 q.2 c
    simpa using this
  by_cases hqc : q.1 = c
  · rw [hq, if_pos hqc, firstSeen_append_one]
    by_cases hk : keyOf q.1 q.2 ∈ catKeys P c
    · rw [if_pos hk]
    · rw [if_neg hk,
        idxOf_append_mem _ _ _ ((mem_firstSeen (catKeys P c) (keyOf c t)).mpr hmem)]
  · rw [hq, if_neg hqc]
    simp

/-- Every reachable category name is colon-free. -/
theorem knownNames_colonFree : ∀ c ∈ knownNames, colonFree c := by
  unfold colonFree
  decide

/-- The invariant holds for the cleared session state. -/
theorem StInv_empty : StInv [] AnonState.empty := by
  constructor
  · intro c
    simp [AnonState.empty, mapGet, catKeys, firstSeen]
  · intro c t _
    simp [AnonState.empty, mapGet, catKeys]

/-- `allocRun` over an appended list is the composition of the two runs. -/
theorem allocRun_append : ∀ (l1 l2 : List (String × String)) (st : AnonState),
    allocRun (l1 ++ l2) st =
      ((allocRun l1 st).1 ++ (allocRun l2 (allocRun l1 st).2).1,
        (allocRun l2 (allocRun l1 st).2).2) := by
  intro l1
  induction l1 with
  | nil => intro l2 st; simp [allocRun]
  | cons p rest ih => intro l2 st; simp [allocRun, ih]

/-- One allocator step from an invariant state: the produced token is the
token formula of the extended match list, and the invariant is preserved. -/
theorem allocToken_step (P : List (String × String)) (st : AnonState)
    (hinv : StInv P st) (c t : String) (hc : colonFree c) :
    (allocToken c t.data st).1 = tokenAt (P ++ [(c, t)]) c t ∧
    StInv (P ++ [(c, t)]) (allocToken c t.data st).2 := by
  have hkey := hinv.2 c t hc
  have hsingle : ∀ c' : String,
      catKeys [(c, t)] c' = if c = c' then [keyOf c t] else [] :=
    fun c' => catKeys_single c t c'
  by_cases hmem : keyOf c t ∈ catKeys P c
  · -- seen before: map hit, state unchanged
    have hget : mapGet st.amap (keyOf c t) = some (tokenAt P c t) := by
      rw [hkey, if_pos hmem]
    have hrun : allocToken c t.data st = (tokenAt P c t, st) := by
      simp only [allocToken]
      rw [show (c ++ ":" ++ String.mk (List.map Char.toLower t.data)) =
        keyOf c t from rfl, hget]
    refine ⟨?_, ?_, ?_⟩
    · rw [hrun, tokenAt_stable P (c, t) c t hmem]
    · -- counters unchanged, distinct counts unchanged
      intro c'
      rw [hrun]
      rw [catKeys_append, hsingle c']
      by_cases hcc : c = c'
      · subst hcc
        rw [if_pos rfl, firstSeen_append_one, if_pos hmem]
        simpa using hinv.1 c
      · rw [if_neg hcc]
        simpa using hinv.1 c'
    · -- map unchanged, memberships unchanged
      intro c' t' hc'
      rw [hrun]
      rw [catKeys_append, hsingle c']
      by_cases hk : keyOf c' t' = keyOf c t
      · have hcc : c' = c ∧ normalizeStr t' = normalizeStr t := keyOf_inj hc' hc hk
        obtain ⟨hcc1, _⟩ := hcc
        subst hcc1
        rw [if_pos rfl]
        have hmem2 : keyOf c' t' ∈ catKeys P c' := by rw [hk]; exact hmem
        have hmem3 : keyOf c' t' ∈ catKeys P c' ++ [keyOf c' t] := by
          simp [hmem2]
        rw [if_pos hmem3]
        have hkey' := hinv.2 c' t' hc'
        rw [if_pos hmem2] at hkey'
        rw [hkey']
        have hstable := tokenAt_stable P (c', t) c' t' hmem2
        rw [← hstable]
      · have hmemiff : (keyOf c' t' ∈ catKeys P c' ++
            (if c = c' then [keyOf c t] else [])) ↔ keyOf c' t' ∈ catKeys P c' := by
          by_cases hcc : c = c'
          · subst hcc; simp [hk]
          · simp [hcc]
        by_cases hm : keyOf c' t' ∈ catKeys P c'
        · rw [if_pos (hmemiff.mpr hm)]
          have hkey' := hinv.2 c' t' hc'
          rw [if_pos hm] at hkey'
          rw [hkey']
          have : tokenAt (P ++ [(c, t)]) c' t' = tokenAt P c' t' :=
            tokenAt_stable P (c, t) c' t' hm
          rw [this]
        · rw [if_neg (fun h => hm (hmemiff.mp h))]
          have hkey' := hinv.2 c' t' hc'
          rw [if_neg hm] at hkey'
          exact hkey'
  · -- fresh value: allocate the next token of the category
    have hget : mapGet st.amap (keyOf c t) = none := by
      rw [hkey, if_neg hmem]
    have hcnt := hinv.1 c
    have hnotfs : keyOf c t ∉ firstSeen (catKeys P c) := by
      rw [mem_firstSeen]; exact hmem
    have hrun : allocToken c t.data st =
        (mkToken (getTokenPrefix c) ((firstSeen (catKeys P c)).length + 1),
          ⟨mapSet st.amap (keyOf c t)
            (mkToken (getTokenPrefix c) ((firstSeen (catKeys P c)).length + 1)),
           mapSet st.counters c ((firstSeen (catKeys P c)).length + 1)⟩) := by
      simp only [allocToken]
      rw [show (c ++ ":" ++ String.mk (List.map Char.toLower t.data)) =
        keyOf c t from rfl, hget, hcnt]
    have hfs : firstSeen (catKeys (P ++ [(c, t)]) c) =
        firstSeen (catKeys P c) ++ [keyOf c t] := by
      rw [catKeys_append, hsingle c, if_pos rfl, firstSeen_append_one,
        if_neg hmem]
    have hidx : idxOf (firstSeen (catKeys (P ++ [(c, t)]) c)) (keyOf c t) =
        (firstSeen (catKeys P c)).length := by
      rw [hfs]
      exact idxOf_append_self _ _ hnotfs
    refine ⟨?_, ?_, ?_⟩
    · rw [hrun]
      unfold tokenAt
      rw [hidx]
    · intro c'
      rw [hrun]
      rw [mapGet_set]
      by_cases hcc : c' = c
      · subst hcc
        rw [if_pos rfl, hfs]
        simp
      · rw [if_neg hcc, catKeys_append, hsingle c',
          if_neg (fun h => hcc h.symm)]
        simpa using hinv.1 c'
    · intro c' t' hc'
      rw [hrun]
      rw [mapGet_set]
      by_cases hk : keyOf c' t' = keyOf c t
      · have hcc := keyOf_inj hc' hc hk
        obtain ⟨hcc1, _⟩ := hcc
        subst hcc1
        rw [if_pos hk]
        have hmem3 : keyOf c' t' ∈ catKeys (P ++ [(c', t)]) c' := by
          rw [catKeys_append, hsingle c', if_pos rfl, hk]
          simp
        rw [if_pos hmem3]
        unfold tokenAt
        rw [show keyOf c' t' = keyOf c' t from hk, hidx]
      · rw [if_neg hk]
        have hmemiff : (keyOf c' t' ∈ catKeys (P ++ [(c, t)]) c') ↔
            keyOf c' t' ∈ catKeys P c' := by
          rw [catKeys_append, hsingle c']
          by_cases hcc : c = c'
          · subst hcc; simp [hk]
          · simp [hcc]
        by_cases hm : keyOf c' t' ∈ catKeys P c'
        · rw [if_pos (hmemiff.mpr hm)]
          have hkey' := hinv.2 c' t' hc'
          rw [if_pos hm] at hkey'
          rw [hkey', tokenAt_stable P (c, t) c' t' hm]
        · rw [if_neg (fun h => hm (hmemiff.mp h))]
          have hkey' := hinv.2 c' t' hc'
          rw [if_neg hm] at hkey'
          exact hkey'

/-- A match's key is among its category's keys. -/
theorem keyOf_mem_catKeys (P : List (String × String)) (p : String × String)
    (hp : p ∈ P) : keyOf p.1 p.2 ∈ catKeys P p.1 := by
  unfold catKeys
  exact List.mem_map_of_mem _ (List.mem_filter.mpr ⟨hp, by simp⟩)

/-- Master description of a whole allocator session from a cleared state: the
token of each match is given by the token formula over the session's match
list, and the final state satisfies the session invariant. -/
theorem allocRun_master :
    ∀ (P : List (String × String)), (∀ p ∈ P, colonFree p.1) →
      (allocRun P AnonState.empty).1 = P.map (fun p => tokenAt P p.1 p.2) ∧
      StInv P (allocRun P AnonState.empty).2 := by
  intro P
  induction P using List.reverseRecOn with
  | nil => intro _; exact ⟨rfl, StInv_empty⟩
  | append_singleton P q ih =>
    intro hcf
    obtain ⟨qc, qt⟩ := q
    have hcfP : ∀ p ∈ P, colonFree p.1 := fun p hp => hcf p (by simp [hp])
    have hq : colonFree qc := hcf (qc, qt) (by simp)
    obtain ⟨ihout, ihinv⟩ := ih hcfP
    have hstep := allocToken_step P (allocRun P AnonState.empty).2 ihinv qc qt hq
    have hsingleRun : allocRun [(qc, qt)] (allocRun P AnonState.empty).2 =
        ([(allocToken qc qt.data (allocRun P AnonState.empty).2).1],
         (allocToken qc qt.data (allocRun P AnonState.empty).2).2) := by
      simp [allocRun]
    rw [allocRun_append, hsingleRun]
    constructor
    · rw [ihout, hstep.1, List.map_append]
      simp only [List.map_cons, List.map_nil]
      congr 1
      apply List.map_eq_map_iff.mpr
      intro p hp
      exact (tokenAt_stable P (qc, qt) p.1 p.2
        (keyOf_mem_catKeys P p hp)).symm
    · exact hstep.2

/-- **C1** — Within one allocator session started from a cleared state, whose
match categories are the detector names of this program: every match's token
is `<categoryPrefix>_<n>` where `n` is one plus the first-seen rank of its
case-normalized value among the distinct values of its category (sequential
numbering from 1 in first-seen order); two matches with the same category and
case-insensitively equal text receive the identical token; two matches that
differ in category or normalized text receive different tokens. -/
theorem c1_anonymization_tokens (L : List (String × String))
    (hL : ∀ p ∈ L, p.1 ∈ knownNames) :
    (∀ (i : Nat) (p : String × String), L[i]? = some p →
      (allocRun L AnonState.empty).1[i]? = some (tokenAt L p.1 p.2)) ∧
    (∀ (i j : Nat) (p q : String × String), L[i]? = some p → L[j]? = some q →
      p.1 = q.1 → normalizeStr p.2 = normalizeStr q.2 →
      (allocRun L AnonState.empty).1[i]? =
        (allocRun L AnonState.empty).1[j]?) ∧
    (∀ (i j : Nat) (p q : String × String), L[i]? = some p → L[j]? = some q →
      ¬(p.1 = q.1 ∧ normalizeStr p.2 = normalizeStr q.2) →
      (allocRun L AnonState.empty).1[i]? ≠
        (allocRun L AnonState.empty).1[j]?) := by
  have hcf : ∀ p ∈ L, colonFree p.1 :=
    fun p hp => knownNames_colonFree p.1 (hL p hp)
  obtain ⟨hout, _⟩ := allocRun_master L hcf
  have hkeyEq : ∀ (p q : String × String), p.1 = q.1 →
      normalizeStr p.2 = normalizeStr q.2 → keyOf p.1 p.2 = keyOf q.1 q.2 := by
    intro p q h1 h2
    unfold keyOf
    rw [h1, h2]
  have hget : ∀ (i : Nat) (p : String × String), L[i]? = some p →
      (allocRun L AnonState.empty).1[i]? = some (tokenAt L p.1 p.2) := by
    intro i p hp
    rw [hout, List.getElem?_map, hp, Option.map_some']
  refine ⟨hget, ?_, ?_⟩
  · intro i j p q hi hj h1 h2
    rw [hget i p hi, hget j q hj]
    unfold tokenAt
    rw [hkeyEq p q h1 h2, h1]
  · intro i j p q hi hj hne heq
    rw [hget i p hi, hget j q hj] at heq
    have htok : tokenAt L p.1 p.2 = tokenAt L q.1 q.2 :=
      Option.some.inj heq
    by_cases hcat : p.1 = q.1
    · have hnorm : normalizeStr p.2 ≠ normalizeStr q.2 :=
        fun h => hne ⟨hcat, h⟩
      obtain ⟨pc, pt⟩ := p
      obtain ⟨qc, qt⟩ := q
      simp only at hcat hnorm htok
      subst hcat
      have hkne : keyOf pc pt ≠ keyOf pc qt := by
        intro hk
        exact hnorm (keyOf_inj (hcf (pc, pt) (List.getElem?_mem hi))
          (hcf (pc, qt) (List.getElem?_mem hj)) hk).2
      unfold tokenAt at htok
      have hidx := mkToken_inj_num htok
      have hmp : keyOf pc pt ∈ firstSeen (catKeys L pc) :=
        (mem_firstSeen _ _).mpr
          (keyOf_mem_catKeys L (pc, pt) (List.getElem?_mem hi))
      have hmq : keyOf pc qt ∈ firstSeen (catKeys L pc) :=
        (mem_firstSeen _ _).mpr
          (keyOf_mem_catKeys L (pc, qt) (List.getElem?_mem hj))
      exact hkne (idxOf_inj (firstSeen (catKeys L pc)) _ _ hmp hmq
        (by omega))
    · exact tokenCross_ne (hL p (List.getElem?_mem hi))
        (hL q (List.getElem?_mem hj)) hcat _ _ htok

/-- Witness for C1 on a concrete session: the case-insensitively repeated
EMAIL value gets the same token, a different EMAIL value gets a different
token, and a PHONE match never shares a token with an EMAIL match. -/
theorem c1_anonymization_tokens_witness :
    (allocRun lc1Session AnonState.empty).1[0]? =
      (allocRun lc1Session AnonState.empty).1[2]? ∧
    (allocRun lc1Session AnonState.empty).1[0]? ≠
      (allocRun lc1Session AnonState.empty).1[3]? ∧
    (allocRun lc1Session AnonState.empty).1[0]? ≠
      (allocRun lc1Session AnonState.empty).1[1]? :=
  ⟨(c1_anonymization_tokens lc1Session (by decide)).2.1 0 2
      ("EMAIL", "Anne@X.com") ("EMAIL", "anne@x.COM") (by decide) (by decide)
      (by decide) (by decide),
   (c1_anonymization_tokens lc1Session (by decide)).2.2 0 3
      ("EMAIL", "Anne@X.com") ("EMAIL", "bob@x.com") (by decide) (by decide)
      (by decide),
   (c1_anonymization_tokens lc1Session (by decide)).2.2 0 1
      ("EMAIL", "Anne@X.com") ("PHONE_NUMBER", "555-1234") (by decide)
      (by decide) (by decide)⟩

/-- The allocator never removes or changes an existing value-to-token entry. -/
theorem allocToken_preserve (name : String) (m : List Char) (st : AnonState)
    (k : String) (v : String) (h : mapGet st.amap k = some v) :
    mapGet (allocToken name m st).2.amap k = some v := by
  simp only [allocToken]
  cases hga : mapGet st.amap (name ++ ":" ++ String.mk (m.map Char.toLower)) with
  | some tok => exact h
  | none =>
    simp only
    rw [mapGet_set]
    rw [if_neg (fun hk => by rw [hk] at h; rw [h] at hga; exact Option.noConfusion hga)]
    exact h

/-- The replacement callback never removes or changes an existing entry. -/
theorem replacerFn_preserve (rd : Redactor) (name : String) (m : List Char)
    (st : AnonState) (k : String) (v : String)
    (h : mapGet st.amap k = some v) :
    mapGet (replacerFn rd name m st).2.amap k = some v := by
  unfold replacerFn
  by_cases ha : rd.anonymize
  · rw [if_pos ha]; exact allocToken_preserve name m st k v h
  · rw [if_neg ha]
    cases rd.globalReplaceWith <;> exact h

/-- A whole pass never removes or changes an existing entry. -/
theorem ruleScanF_preserve (rd : Redactor) (pat : Regex) (name : String) :
    ∀ (fuel : Nat) (prev : Option Char) (s : List Char) (st : AnonState)
      (k : String) (v : String), mapGet st.amap k = some v →
      mapGet ((ruleScanF rd pat name fuel prev s st).2.1).amap k = some v := by
  intro fuel
  induction fuel with
  | zero => intro prev s st k v h; exact h
  | succ fuel ih =>
    intro prev s st k v h
    cases hf : findMatchAt pat prev s with
    | none =>
      cases s with
      | nil => simpa [ruleScanF, hf] using h
      | cons c cs =>
        simpa [ruleScanF, hf] using ih (some c) cs st k v h
    | some q =>
      obtain ⟨kk, p'⟩ := q
      cases s with
      | nil =>
        simpa [ruleScanF, hf] using replacerFn_preserve rd name [] st k v h
      | cons c cs =>
        by_cases hk : kk = 0
        · simpa [ruleScanF, hf, hk] using
            ih (some c) cs (replacerFn rd name [] st).2 k v
              (replacerFn_preserve rd name [] st k v h)
        · simpa [ruleScanF, hf, hk] using
            ih p' ((c :: cs).drop kk)
              (replacerFn rd name ((c :: cs).take kk) st).2 k v
              (replacerFn_preserve rd name ((c :: cs).take kk) st k v h)

/-- `MapExtends` is reflexive. -/
theorem mapExtends_refl (st : AnonState) : MapExtends st st := fun _ _ h => h

/-- `MapExtends` is transitive. -/
theorem mapExtends_trans {s1 s2 s3 : AnonState} (h1 : MapExtends s1 s2)
    (h2 : MapExtends s2 s3) : MapExtends s1 s3 :=
  fun k v h => h2 k v (h1 k v h)

/-- A pass only extends the session map. -/
theorem ruleScanF_extends (rd : Redactor) (pat : Regex) (name : String)
    (fuel : Nat) (prev : Option Char) (s : List Char) (st : AnonState) :
    MapExtends st (ruleScanF rd pat name fuel prev s st).2.1 :=
  fun k v h => ruleScanF_preserve rd pat name fuel prev s st k v h

/-- The rule loop never removes or changes an existing entry. -/
theorem runRules_preserve (rd : Redactor) :
    ∀ (rules : List Rule) (s : List Char) (st : AnonState) (k v : String),
      mapGet st.amap k = some v →
      mapGet ((runRules rd rules s st).2.1).amap k = some v := by
  intro rules
  induction rules with
  | nil => intro s st k v h; exact h
  | cons r rest ih =>
    intro s st k v h
    simp only [runRules, ruleScan]
    exact ih _ _ k v (ruleScanF_preserve rd r.pattern r.name _ none s st k v h)

/-- The rule loop only extends the session map. -/
theorem runRules_extends (rd : Redactor) (rules : List Rule) (s : List Char)
    (st : AnonState) : MapExtends st (runRules rd rules s st).2.1 :=
  fun k v h => runRules_preserve rd rules s st k v h

/-- A per-leaf `_redactString(·, false)` call only extends the session map. -/
theorem redactStringM_false_extends (rd : Redactor) (s : String)
    (st : AnonState) : MapExtends st (redactStringM rd s false st).state := by
  intro k v h
  simp only [redactStringM]
  exact runRules_preserve rd rd.activeRules s.data
    (if (false && rd.anonymize) = true then AnonState.empty else st) k v
    (by simpa using h)

/-- The sequential leaf walk only extends the session map. -/
theorem redactLeaves_extends (rd : Redactor) :
    ∀ (L : List String) (st : AnonState),
      MapExtends st (redactLeaves rd L st).2 := by
  intro L
  induction L with
  | nil => intro st; exact mapExtends_refl st
  | cons x xs ih =>
    intro st
    exact mapExtends_trans (redactStringM_false_extends rd x st)
      (ih (redactStringM rd x false st).state)

/-- Rerunning the allocator on a value whose token is already recorded (in any
state extending the step's post-state) returns the recorded token and leaves
the state untouched. -/
theorem allocToken_covered (name : String) (m : List Char)
    (st st2 : AnonState)
    (hext : MapExtends (allocToken name m st).2 st2) :
    allocToken name m st2 = ((allocToken name m st).1, st2) := by
  simp only [allocToken] at hext ⊢
  cases hga : mapGet st.amap (name ++ ":" ++ String.mk (m.map Char.toLower)) with
  | some tok =>
    rw [hga] at hext
    have h2 := hext _ _ hga
    simp [h2]
  | none =>
    rw [hga] at hext
    have hself : mapGet (mapSet st.amap
        (name ++ ":" ++ String.mk (m.map Char.toLower))
        (mkToken (getTokenPrefix name) ((mapGet st.counters name).getD 0 + 1)))
        (name ++ ":" ++ String.mk (m.map Char.toLower)) =
        some (mkToken (getTokenPrefix name)
          ((mapGet st.counters name).getD 0 + 1)) := by
      rw [mapGet_set, if_pos rfl]
    have h2 := hext _ _ hself
    simp [h2]

/-- Rerunning the replacement callback under anonymization, in a state that
extends the step's post-state, reproduces the replacement without touching the
state. -/
theorem replacerFn_covered (rd : Redactor) (name : String) (m : List Char)
    (hanon : rd.anonymize = true) (st st2 : AnonState)
    (hext : MapExtends (replacerFn rd name m st).2 st2) :
    replacerFn rd name m st2 = ((replacerFn rd name m st).1, st2) := by
  simp only [replacerFn, hanon, if_pos] at hext ⊢
  exact allocToken_covered name m st st2 hext

/-- The one-step unfolding of `ruleScanF` at positive fuel. -/
theorem ruleScanF_succ (rd : Redactor) (pat : Regex) (name : String)
    (fuel : Nat) (prev : Option Char) (s : List Char) (st : AnonState) :
    ruleScanF rd pat name (fuel + 1) prev s st =
      (match findMatchAt pat prev s with
      | none =>
        match s with
        | [] => ([], st, [])
        | c :: cs =>
          let r := ruleScanF rd pat name fuel (some c) cs st
          (c :: r.1, r.2)
      | some (k, p') =>
        match s with
        | [] =>
          let rep := replacerFn rd name [] st
          (rep.1.data, rep.2, [mkEvent name])
        | c :: cs =>
          if k = 0 then
            let rep := replacerFn rd name [] st
            let r := ruleScanF rd pat name fuel (some c) cs rep.2
            (rep.1.data ++ c :: r.1, r.2.1, mkEvent name :: r.2.2)
          else
            let rep := replacerFn rd name ((c :: cs).take k) st
            let r := ruleScanF rd pat name fuel p' ((c :: cs).drop k) rep.2
            (rep.1.data ++ r.1, r.2.1, mkEvent name :: r.2.2)) := rfl

/-- Rerunning a whole pass on the same text, in a state that extends the first
run's post-state, reproduces the first run's output and events and leaves the
state untouched. -/
theorem ruleScanF_covered (rd : Redactor) (pat : Regex) (name : String)
    (hanon : rd.anonymize = true) :
    ∀ (fuel : Nat) (prev : Option Char) (s : List Char) (st st2 : AnonState),
      MapExtends (ruleScanF rd pat name fuel prev s st).2.1 st2 →
      ruleScanF rd pat name fuel prev s st2 =
        ((ruleScanF rd pat name fuel prev s st).1, st2,
          (ruleScanF rd pat name fuel prev s st).2.2) := by
  intro fuel
  induction fuel with
  | zero => intro prev s st st2 _; rfl
  | succ fuel ih =>
    intro prev s st st2 hext
    cases hf : findMatchAt pat prev s with
    | none =>
      cases s with
      | nil => simp [ruleScanF_succ, hf]
      | cons c cs =>
        simp only [ruleScanF_succ, hf] at hext ⊢
        have hrec := ih (some c) cs st st2 (by simpa using hext)
        simp [hrec]
    | some q =>
      obtain ⟨kk, p'⟩ := q
      cases s with
      | nil =>
        simp only [ruleScanF_succ, hf] at hext ⊢
        have hrep := replacerFn_covered rd name [] hanon st st2
          (by simpa using hext)
        simp [hrep]
      | cons c cs =>
        by_cases hk : kk = 0
        · subst hk
          simp only [ruleScanF_succ, hf, reduceIte] at hext ⊢
          have hext1 : MapExtends
              (ruleScanF rd pat name fuel (some c) cs
                (replacerFn rd name [] st).2).2.1 st2 := by
            simpa using hext
          have hextRep : MapExtends (replacerFn rd name [] st).2 st2 :=
            mapExtends_trans
              (ruleScanF_extends rd pat name fuel (some c) cs _) hext1
          have hrep := replacerFn_covered rd name [] hanon st st2 hextRep
          have hrec := ih (some c) cs (replacerFn rd name [] st).2 st2 hext1
          simp [hrep, hrec]
        · simp only [ruleScanF_succ, hf, hk, reduceIte] at hext ⊢
          have hext1 : MapExtends
              (ruleScanF rd pat name fuel p' ((c :: cs).drop kk)
                (replacerFn rd name ((c :: cs).take kk) st).2).2.1 st2 := by
            simpa using hext
          have hextRep : MapExtends
              (replacerFn rd name ((c :: cs).take kk) st).2 st2 :=
            mapExtends_trans
              (ruleScanF_extends rd pat name fuel p' ((c :: cs).drop kk) _)
              hext1
          have hrep := replacerFn_covered rd name ((c :: cs).take kk) hanon
            st st2 hextRep
          have hrec := ih p' ((c :: cs).drop kk)
            (replacerFn rd name ((c :: cs).take kk) st).2 st2 hext1
          simp [hrep, hrec]

/-- Rerunning the whole rule loop on the same text, in a state extending the
first run's post-state, reproduces the output and events without touching the
state. -/
theorem runRules_covered (rd : Redactor) (hanon : rd.anonymize = true) :
    ∀ (rules : List Rule) (s : List Char) (st st2 : AnonState),
      MapExtends (runRules rd rules s st).2.1 st2 →
      runRules rd rules s st2 =
        ((runRules rd rules s st).1, st2, (runRules rd rules s st).2.2) := by
  intro rules
  induction rules with
  | nil => intro s st st2 _; rfl
  | cons r rest ih =>
    intro s st st2 hext
    simp only [runRules, ruleScan] at hext ⊢
    have hextP : MapExtends
        (ruleScanF rd r.pattern r.name (s.length + 1) none s st).2.1 st2 :=
      mapExtends_trans (runRules_extends rd rest _ _) hext
    have hscan := ruleScanF_covered rd r.pattern r.name hanon (s.length + 1)
      none s st st2 hextP
    have hrest := ih (ruleScanF rd r.pattern r.name (s.length + 1) none s st).1
      (ruleScanF rd r.pattern r.name (s.length + 1) none s st).2.1 st2 hext
    simp [hscan, hrest]

/-- Rerunning a per-leaf `_redactString(·, false)` call on the same string, in
a state extending the first call's post-state, reproduces its output and
events without touching the state. -/
theorem redactStringM_false_covered (rd : Redactor)
    (hanon : rd.anonymize = true) (s : String) (st st2 : AnonState)
    (hext : MapExtends (redactStringM rd s false st).state st2) :
    redactStringM rd s false st2 =
      ⟨(redactStringM rd s false st).out, st2,
        (redactStringM rd s false st).events, 0⟩ := by
  simp only [redactStringM] at hext ⊢
  have := runRules_covered rd hanon rd.activeRules s.data
    (if (false && rd.anonymize) = true then AnonState.empty else st) st2
    (by simpa using hext)
  simp at this
  simp [this]

/-- A later leaf equal to an already-processed string resolves to the same
output, whatever further leaves were processed in between. -/
theorem redactLeaves_later (rd : Redactor) (hanon : rd.anonymize = true)
    (x : String) (st : AnonState) :
    ∀ (L : List String) (st' : AnonState) (m : Nat),
      L[m]? = some x →
      MapExtends (redactStringM rd x false st).state st' →
      (redactLeaves rd L st').1[m]? =
        some (redactStringM rd x false st).out := by
  intro L
  induction L with
  | nil => intro st' m hm _; simp at hm
  | cons y ys ih =>
    intro st' m hm hext
    cases m with
    | zero =>
      simp at hm
      subst hm
      have hcov := redactStringM_false_covered rd hanon y st st' hext
      simp [redactLeaves, hcov]
    | succ m =>
      simp at hm
      have hext2 : MapExtends (redactStringM rd x false st).state
          (redactStringM rd y false st').state :=
        mapExtends_trans hext (redactStringM_false_extends rd y st')
      simp only [redactLeaves]
      simpa using ih (redactStringM rd y false st').state m hm hext2

/-- Within one sequential leaf walk, two equal leaf strings produce equal
outputs, wherever they occur. -/
theorem redactLeaves_consistent (rd : Redactor) (hanon : rd.anonymize = true) :
    ∀ (L : List String) (st : AnonState) (i j : Nat) (s : String),
      L[i]? = some s → L[j]? = some s →
      (redactLeaves rd L st).1[i]? = (redactLeaves rd L st).1[j]? := by
  intro L
  induction L with
  | nil => intro st i j s hi _; simp at hi
  | cons y ys ih =>
    intro st i j s hi hj
    cases i with
    | zero =>
      cases j with
      | zero => rfl
      | succ m =>
        simp at hi hj
        subst hi
        have hl := redactLeaves_later rd hanon y st ys
          (redactStringM rd y false st).state m hj (mapExtends_refl _)
        simp only [redactLeaves]
        simpa using hl.symm
    | succ m =>
      cases j with
      | zero =>
        simp at hi hj
        subst hj
        have hl := redactLeaves_later rd hanon y st ys
          (redactStringM rd y false st).state m hi (mapExtends_refl _)
        simp only [redactLeaves]
        simpa using hl
      | succ n =>
        simp at hi hj
        have hrec := ih (redactStringM rd y false st).state m n s hi hj
        simp only [redactLeaves]
        simpa using hrec

/-- The sequential leaf walk decomposes over appended leaf lists. -/
theorem redactLeaves_append (rd : Redactor) :
    ∀ (l1 l2 : List String) (st : AnonState),
      redactLeaves rd (l1 ++ l2) st =
        ((redactLeaves rd l1 st).1 ++
          (redactLeaves rd l2 (redactLeaves rd l1 st).2).1,
         (redactLeaves rd l2 (redactLeaves rd l1 st).2).2) := by
  intro l1
  induction l1 with
  | nil => intro l2 st; simp [redactLeaves]
  | cons x xs ih => intro l2 st; simp [redactLeaves, ih]

mutual
theorem processValue_leaves (rd : Redactor) :
    ∀ (v : JValue) (st : AnonState),
      leavesV (processValue rd v st).val =
        (redactLeaves rd (leavesV v) st).1 ∧
      (processValue rd v st).state = (redactLeaves rd (leavesV v) st).2
  | JValue.jstr s, st => by
    simp [processValue, leavesV, redactLeaves]
  | JValue.jnum n, st => by simp [processValue, leavesV, redactLeaves]
  | JValue.jbool b, st => by simp [processValue, leavesV, redactLeaves]
  | JValue.jnull, st => by simp [processValue, leavesV, redactLeaves]
  | JValue.jarr xs, st => by
    have h := processJList_leaves rd xs st
    simpa [processValue, leavesV] using h
  | JValue.jobj fs, st => by
    have h := processJFields_leaves rd fs st
    simpa [processValue, leavesV] using h

theorem processJList_leaves (rd : Redactor) :
    ∀ (l : JList) (st : AnonState),
      leavesL (processJList rd l st).val =
        (redactLeaves rd (leavesL l) st).1 ∧
      (processJList rd l st).state = (redactLeaves rd (leavesL l) st).2
  | JList.nil, st => by simp [processJList, leavesL, redactLeaves]
  | JList.cons v rest, st => by
    have h1 := processValue_leaves rd v st
    have h2 := processJList_leaves rd rest (processValue rd v st).state
    constructor
    · simp only [processJList, leavesL]
      rw [redactLeaves_append, h1.1, h2.1, h1.2]
    · simp only [processJList, leavesL]
      rw [redactLeaves_append, h2.2, h1.2]

theorem processJFields_leaves (rd : Redactor) :
    ∀ (f : JFields) (st : AnonState),
      leavesF (processJFields rd f st).val =
        (redactLeaves rd (leavesF f) st).1 ∧
      (processJFields rd f st).state = (redactLeaves rd (leavesF f) st).2
  | JFields.fnil, st => by simp [processJFields, leavesF, redactLeaves]
  | JFields.fcons k v rest, st => by
    have h1 := processValue_leaves rd v st
    have h2 := processJFields_leaves rd rest (processValue rd v st).state
    constructor
    · simp only [processJFields, leavesF]
      rw [redactLeaves_append, h1.1, h2.1, h1.2]
    · simp only [processJFields, leavesF]
      rw [redactLeaves_append, h2.2, h1.2]
end

/-- **C2** — A `redactObject` call with anonymization enabled runs exactly one
session over all string leaves: any two string leaves with the same content,
wherever they sit in the structure, come out identical (in particular, a value
repeated in two branches receives the same token), and the spec's example
`{a: "anne@example.com", b: "anne@example.com", c: "bob@example.com"}` with
only EMAIL enabled redacts to `{a: "EMAIL_1", b: "EMAIL_1", c: "EMAIL_2"}`. -/
theorem c2_object_single_session :
    (∀ (rd : Redactor) (v : JValue) (st : AnonState) (i j : Nat) (s : String),
      rd.anonymize = true →
      (leavesV v)[i]? = some s → (leavesV v)[j]? = some s →
      (leavesV (redactObject rd v st).val)[i]? =
        (leavesV (redactObject rd v st).val)[j]?) ∧
    (redactObject rdEmailAnon vEmailExample AnonState.empty).val =
      vEmailExpected := by
  constructor
  · intro rd v st i j s hanon hi hj
    simp only [redactObject, jsonClone, hanon, if_pos]
    rw [(processValue_leaves rd v AnonState.empty).1]
    exact redactLeaves_consistent rd hanon (leavesV v) AnonState.empty i j s
      hi hj
  · decide

/-- Witness for C2: in the spec's example object, the two branches holding
`"anne@example.com"` come out identical. -/
theorem c2_object_single_session_witness :
    (leavesV (redactObject rdEmailAnon vEmailExample AnonState.empty).val)[0]? =
      (leavesV (redactObject rdEmailAnon vEmailExample AnonState.empty).val)[1]? :=
  c2_object_single_session.1 rdEmailAnon vEmailExample AnonState.empty 0 1
    "anne@example.com" (by decide) (by decide) (by decide)
